import Mathlib

set_option maxHeartbeats 1600000

/-! Shallow embedding of NNPACK's fully-connected forward operator
(`src/fully-connected-output.c`, header `include/nnpack.h`) together with
proofs about its packing layout, block-size planner, microkernel dispatch
and end-to-end semantics.

Buffers of C `float`s are modelled as total maps `Nat → ℚ` (machine floats
are modelled as exact rationals, so statements about floating-point results
hold exactly, up to the reassociation the spec's "accumulation tolerance"
allows).  Sizes (`size_t`) are modelled as `Nat`; the single place where
`size_t` wrap-around matters (the unary negation in the column-mask offset,
line 135 of the C file) is modelled explicitly modulo `2 ^ 64`. -/

/-- Modelled from the spec: `round_up` from `include/nnpack/utils.h` (header is
not under `src/`); rounds `n` up to the nearest multiple of `q`
(spec 4.1/4.5 use it for the outer block stride and the scratch sizing). -/
def round_up (n q : Nat) : Nat := (n + q - 1) / q * q

/-- Modelled from the spec: `round_down` from `include/nnpack/utils.h` (header
is not under `src/`); floors `n` to a multiple of `q` (spec 4.2: "all three
rounding operations floor to a multiple of the corresponding subblock_max"). -/
def round_down (n q : Nat) : Nat := n / q * q

/-- Fixed microkernel constant, line 264 of `fully-connected-output.c`:
`const size_t batch_subblock_max = 4`. -/
def batch_subblock_max : Nat := 4

/-- Fixed microkernel constant, line 265 of `fully-connected-output.c`:
`const size_t output_channels_subblock_max = 24`. -/
def output_channels_subblock_max : Nat := 24

/-- Start offsets of a C tiled loop `for (s = 0; s < r; s += t)`:
the list `[0, t, 2*t, ...]` of all multiples of `t` below `r`. -/
def tileStarts (r t : Nat) : List Nat :=
  (List.range ((r + t - 1) / t)).map (fun k => k * t)

/-- The (row-major ordered) grid of tile coordinates of a 2D tiled loop over
ranges `ri × rj` with tile sizes `ti × tj`. -/
def tilePairs (ri rj ti tj : Nat) : List (Nat × Nat) :=
  (tileStarts ri ti).flatMap (fun a => (tileStarts rj tj).map (fun b => (a, b)))

/-- Run a sequence of stores `buffer[index] = value` on a flat buffer,
in program order. -/
def applyWrites (ws : List (Nat × ℚ)) (buf : Nat → ℚ) : Nat → ℚ :=
  ws.foldl (fun b pv => Function.update b pv.1 pv.2) buf

/-- Re-base a list of stores at byte/element offset `off` inside a larger
buffer (pointer arithmetic `base + off`). -/
def shiftWrites (off : Nat) (ws : List (Nat × ℚ)) : List (Nat × ℚ) :=
  ws.map (fun pv => (off + pv.1, pv.2))

/-- Context of the input packing transform, lines 16-22 of
`fully-connected-output.c`. -/
structure input_packing_context where
  matrix : Nat → ℚ
  input_channels : Nat
  outer_subblock_max : Nat

/-- The stores performed by `pack_input_matrix` (lines 24-48 of
`fully-connected-output.c`) on one `(outer_block, input_channels_block)` tile,
in loop order: for each outer subblock (step `outer_subblock_max`), each
channel offset within the inner block and each offset within the subblock,
`packed_matrix[packed_index] = matrix[index]` with the index expressions of
lines 41-43. -/
def pack_input_matrix_writes (context : input_packing_context)
    (outer_block_start input_channels_block_start outer_block_size input_channels_block_size : Nat) :
    List (Nat × ℚ) :=
  let input_channels := context.input_channels
  let outer_subblock_max := context.outer_subblock_max
  let outer_block_stride := round_up outer_block_size outer_subblock_max
  (tileStarts outer_block_size outer_subblock_max).flatMap fun outer_subblock_start =>
    let outer_subblock_size := min (outer_block_size - outer_subblock_start) outer_subblock_max
    (List.range input_channels_block_size).flatMap fun input_channels_block_offset =>
      let input_channel := input_channels_block_start + input_channels_block_offset
      (List.range outer_subblock_size).map fun outer_subblock_offset =>
        ((outer_block_start * input_channels + input_channels_block_start * outer_block_stride +
            outer_subblock_start * input_channels_block_size +
            input_channels_block_offset * outer_subblock_max + outer_subblock_offset),
          context.matrix ((outer_block_start + outer_subblock_start + outer_subblock_offset) *
            input_channels + input_channel))

/-- `pack_input_matrix` as a transformer of the packed buffer: performs the
stores of `pack_input_matrix_writes` on it. -/
def pack_input_matrix (context : input_packing_context) (packed_matrix : Nat → ℚ)
    (outer_block_start input_channels_block_start outer_block_size input_channels_block_size : Nat) :
    Nat → ℚ :=
  applyWrites
    (pack_input_matrix_writes context outer_block_start input_channels_block_start
      outer_block_size input_channels_block_size) packed_matrix

/-- Context of the kernel packing transform, lines 50-58 of
`fully-connected-output.c`. -/
structure kernel_packing_context where
  matrix : Nat → ℚ
  input_channels : Nat
  outer_subblock_max : Nat
  input_channels_block_start : Nat
  input_channels_block_size : Nat

/-- The stores performed by `pack_kernel_matrix` (lines 60-85 of
`fully-connected-output.c`) on one outer (output-channel) block, in loop
order, with the index expressions of lines 78-80. -/
def pack_kernel_matrix_writes (context : kernel_packing_context)
    (outer_block_start outer_block_size : Nat) : List (Nat × ℚ) :=
  let input_channels := context.input_channels
  let outer_subblock_max := context.outer_subblock_max
  let input_channels_block_start := context.input_channels_block_start
  let input_channels_block_size := context.input_channels_block_size
  (tileStarts outer_block_size outer_subblock_max).flatMap fun outer_subblock_start =>
    let outer_subblock_size := min (outer_block_size - outer_subblock_start) outer_subblock_max
    (List.range input_channels_block_size).flatMap fun input_channels_block_offset =>
      let input_channel := input_channels_block_start + input_channels_block_offset
      (List.range outer_subblock_size).map fun outer_subblock_offset =>
        (((outer_block_start + outer_subblock_start) * input_channels_block_size +
            input_channels_block_offset * outer_subblock_max + outer_subblock_offset),
          context.matrix ((outer_block_start + outer_subblock_start + outer_subblock_offset) *
            input_channels + input_channel))

/-- `pack_kernel_matrix` as a transformer of the packed buffer. -/
def pack_kernel_matrix (context : kernel_packing_context) (packed_matrix : Nat → ℚ)
    (outer_block_start outer_block_size : Nat) : Nat → ℚ :=
  applyWrites (pack_kernel_matrix_writes context outer_block_start outer_block_size) packed_matrix

/-- The constant mask array of line 168 of `fully-connected-output.c`:
`{ UINT32_MAX ×8, 0 ×8 }`, with all-ones lanes modelled as `true`. -/
def column_mask : List Bool :=
  [true, true, true, true, true, true, true, true,
   false, false, false, false, false, false, false, false]

/-- Read one lane of the column mask array (out-of-bounds reads never happen
on the executed paths; they default to a zero lane). -/
def column_mask_bit (j : Nat) : Bool := column_mask.getD j false

/-- Two's-complement negation of a `size_t` value, as on line 135:
`(-n)` computed modulo `2 ^ 64`. -/
def size_t_neg (n : Nat) : Nat := (2 ^ 64 - n % 2 ^ 64) % 2 ^ 64

/-- The column-mask pointer advance of line 135:
`(-output_channels_subblock_size) & (simd_width - 1)`. -/
def mask_shift (output_channels_subblock_size simd_width : Nat) : Nat :=
  Nat.land (size_t_neg output_channels_subblock_size) (simd_width - 1)

/-- Dispatch-table row selection, line 122: `batch_subblock_size - 1`. -/
def sgemm_row (batch_subblock_size : Nat) : Nat := batch_subblock_size - 1

/-- Dispatch-table column selection, line 129:
`(output_channels_subblock_size - 1) / simd_width`. -/
def sgemm_col (output_channels_subblock_size simd_width : Nat) : Nat :=
  (output_channels_subblock_size - 1) / simd_width

/-- Modelled from the spec: whether a microkernel of full column width `nr`
writes output column `oo`.  Spec 4.3: full SIMD groups below the last are
stored unconditionally; the lanes of the last `simd_width`-wide group are
enabled by the column mask the caller passed. -/
def sgemm_col_enabled (nr simd_width : Nat) (mask : Nat → Bool) (oo : Nat) : Bool :=
  if oo + simd_width < nr then true else mask (oo + simd_width - nr)

/-- Modelled from the spec: the accumulation events of one microkernel call
(the `nnp_sgemm_{1,2,3,4}x{8,16,24}__fma3` family named on lines 180-201 is
not under `src/`).  Per spec 4.3 the `mr × nr` kernel accumulates, over `k`
reduction steps, products of the packed input tile `a` (laid out with the
inner stride `batch_subblock_max` produced by `pack_input_matrix`) and the
packed kernel tile `b` (inner stride `output_channels_subblock_max` produced
by `pack_kernel_matrix`), and stores row `bb` at `c[bb*row_stride + oo]` for
every mask-enabled column `oo`. -/
def nnp_sgemm_events (mr nr simd_width k : Nat) (a b : Nat → ℚ) (mask : Nat → Bool)
    (cBase row_stride : Nat) : List (Nat × ℚ) :=
  (List.range mr).flatMap fun bb =>
    ((List.range nr).filter fun oo => sgemm_col_enabled nr simd_width mask oo).map fun oo =>
      (cBase + bb * row_stride + oo,
        ∑ l ∈ Finset.range k,
          a (l * batch_subblock_max + bb) * b (l * output_channels_subblock_max + oo))

/-- Run a list of accumulation events: each event `(q, v)` performs
`c[q] = (update ? c[q] : 0) + v`.  Spec 4.3/4.5: the kernels initialize the
output tile on the first input-channel block (`update == 0`, the
`input_channels_block_start` argument of line 130) and accumulate into it on
the later ones. -/
def applyAccum (update : Nat) (es : List (Nat × ℚ)) (buf : Nat → ℚ) : Nat → ℚ :=
  es.foldl (fun b e => Function.update b e.1 ((if update ≠ 0 then b e.1 else 0) + e.2)) buf

/-- State threaded through the multiplication stage: the caller's output
tensor and the trace of output indices stored so far. -/
structure mm_state where
  out : Nat → ℚ
  owrites : List Nat

/-- Modelled from the spec: one microkernel call as a state transformer —
runs the accumulation events and records the stored output indices. -/
def nnp_sgemm (mr nr simd_width k update : Nat) (a b : Nat → ℚ) (mask : Nat → Bool)
    (st : mm_state) (cBase row_stride : Nat) : mm_state :=
  let es := nnp_sgemm_events mr nr simd_width k a b mask cBase row_stride
  { out := applyAccum update es st.out, owrites := st.owrites ++ es.map Prod.fst }

/-- Context of the multiplication stage, lines 87-102 of
`fully-connected-output.c` (the output pointer and the store trace are
threaded separately as `mm_state`; the dispatch table of lines 179-202 is
modelled by the `(mr, nr)` parameters of `nnp_sgemm`). -/
structure matrix_multiplication_context where
  input : Nat → ℚ
  kernel : Nat → ℚ
  input_channels : Nat
  output_channels : Nat
  batch_block_start : Nat
  batch_block_size : Nat
  input_channels_block_start : Nat
  input_channels_block_size : Nat
  output_channels_subblock_max : Nat
  batch_subblock_max : Nat
  simd_width : Nat
  column_mask : Nat → Bool

/-- `compute_matrix_multiplication`, lines 104-137 of
`fully-connected-output.c`: for every output-channel subblock of the tile,
select the microkernel at dispatch row `batch_subblock_size - 1` and column
`(output_channels_subblock_size - 1) / simd_width` (i.e. the kernel of shape
`batch_subblock_size × (column+1)*simd_width`) and call it on the packed
tiles, with the column-mask pointer advanced by `mask_shift`. -/
def compute_matrix_multiplication (context : matrix_multiplication_context) (st : mm_state)
    (output_channels_block_start batch_subblock_start
     output_channels_block_size batch_subblock_size : Nat) : mm_state :=
  let batch_block_stride := round_up context.batch_block_size context.batch_subblock_max
  (tileStarts output_channels_block_size context.output_channels_subblock_max).foldl
    (fun st output_channels_subblock_start =>
      let output_channels_subblock_size :=
        min (output_channels_block_size - output_channels_subblock_start)
          context.output_channels_subblock_max
      nnp_sgemm (sgemm_row batch_subblock_size + 1)
        ((sgemm_col output_channels_subblock_size context.simd_width + 1) * context.simd_width)
        context.simd_width
        context.input_channels_block_size context.input_channels_block_start
        (fun j => context.input (context.batch_block_start * context.input_channels +
          context.input_channels_block_start * batch_block_stride +
          batch_subblock_start * context.input_channels_block_size + j))
        (fun j => context.kernel ((output_channels_block_start + output_channels_subblock_start) *
          context.input_channels_block_size + j))
        (fun j => context.column_mask
          (mask_shift output_channels_subblock_size context.simd_width + j))
        st
        ((context.batch_block_start + batch_subblock_start) * context.output_channels +
          (output_channels_block_start + output_channels_subblock_start))
        context.output_channels)
    st

/-- Modelled from the spec: `pthreadpool_compute_1d_tiled` (external
collaborator, spec 4.4/6: with a null thread pool every tiled loop
degenerates to sequential iteration over the same tile grid, and the
parallel path is observably identical). -/
def pthreadpool_compute_1d_tiled {α : Type} (f : α → Nat → Nat → α) (st : α) (r t : Nat) : α :=
  (tileStarts r t).foldl (fun s a => f s a (min (r - a) t)) st

/-- Modelled from the spec: `pthreadpool_compute_2d_tiled` (external
collaborator, spec 4.4/6), sequential iteration over the 2D tile grid. -/
def pthreadpool_compute_2d_tiled {α : Type} (f : α → Nat → Nat → Nat → Nat → α) (st : α)
    (ri rj ti tj : Nat) : α :=
  (tilePairs ri rj ti tj).foldl
    (fun s ab => f s ab.1 ab.2 (min (ri - ab.1) ti) (min (rj - ab.2) tj)) st

/-- State threaded through `compute_fully_connected_output`: the scratch
allocation (holding packed input and packed kernel) plus the `mm_state`. -/
structure fc_state where
  scratch : Nat → ℚ
  out : Nat → ℚ
  owrites : List Nat

/-- Body of the per-input-channel-block loop of
`compute_fully_connected_output` (lines 204-237 of
`fully-connected-output.c`): compute the block size, pack the kernel slice
for this block (1D tiled over `output_channels`), then for every batch
block run the 2D tiled multiplication over
`(output_channels, batch_block_size)`. -/
def fc_input_channels_block_step
    (simd_width batch_size batch_block_max batch_subblock_max
     input_channels input_channels_block_max
     output_channels output_channels_block_max output_channels_subblock_max : Nat)
    (kernel : Nat → ℚ) (packed_input_off packed_kernel_off : Nat)
    (st : fc_state) (input_channels_block_start : Nat) : fc_state :=
  let input_channels_block_size :=
    min (input_channels - input_channels_block_start) input_channels_block_max
  let kernel_packing_context : kernel_packing_context :=
    { matrix := kernel, input_channels := input_channels,
      outer_subblock_max := output_channels_subblock_max,
      input_channels_block_start := input_channels_block_start,
      input_channels_block_size := input_channels_block_size }
  let scratch2 := pthreadpool_compute_1d_tiled
    (fun buf outer_block_start outer_block_size =>
      applyWrites
        (shiftWrites packed_kernel_off
          (pack_kernel_matrix_writes kernel_packing_context outer_block_start
            outer_block_size)) buf)
    st.scratch output_channels output_channels_block_max
  let context : matrix_multiplication_context :=
    { input := fun j => scratch2 (packed_input_off + j),
      kernel := fun j => scratch2 (packed_kernel_off + j),
      input_channels := input_channels, output_channels := output_channels,
      batch_block_start := 0, batch_block_size := 0,
      input_channels_block_start := input_channels_block_start,
      input_channels_block_size := input_channels_block_size,
      output_channels_subblock_max := output_channels_subblock_max,
      batch_subblock_max := batch_subblock_max,
      simd_width := simd_width, column_mask := column_mask_bit }
  let mm := (tileStarts batch_size batch_block_max).foldl
    (fun (mm : mm_state) batch_block_start =>
      let batch_block_size := min (batch_size - batch_block_start) batch_block_max
      pthreadpool_compute_2d_tiled
        (compute_matrix_multiplication
          { context with batch_block_start := batch_block_start,
                         batch_block_size := batch_block_size })
        mm output_channels batch_block_size
        output_channels_block_max batch_subblock_max)
    { out := st.out, owrites := st.owrites }
  { scratch := scratch2, out := mm.out, owrites := mm.owrites }

/-- `compute_fully_connected_output`, lines 139-238 of
`fully-connected-output.c`.  `packed_input_off`/`packed_kernel_off` are the
element offsets of the two packed buffers inside the scratch allocation
(the `packed_input`/`packed_kernel` pointers of lines 284-285).  Stage 1
packs the whole input matrix (2D tiled over `(batch, input_channels)`);
then the loop over input-channel blocks folds
`fc_input_channels_block_step` over the tile starts. -/
def compute_fully_connected_output
    (simd_width batch_size batch_block_max batch_subblock_max
     input_channels input_channels_block_max
     output_channels output_channels_block_max output_channels_subblock_max : Nat)
    (input kernel : Nat → ℚ) (output : Nat → ℚ) (scratch : Nat → ℚ)
    (packed_input_off packed_kernel_off : Nat) : fc_state :=
  let input_packing_context : input_packing_context :=
    { matrix := input, input_channels := input_channels,
      outer_subblock_max := batch_subblock_max }
  let scratch1 := pthreadpool_compute_2d_tiled
    (fun buf outer_block_start input_channels_block_start outer_block_size
        input_channels_block_size =>
      applyWrites
        (shiftWrites packed_input_off
          (pack_input_matrix_writes input_packing_context outer_block_start
            input_channels_block_start outer_block_size input_channels_block_size)) buf)
    scratch batch_size input_channels batch_block_max input_channels_block_max
  (tileStarts input_channels input_channels_block_max).foldl
    (fc_input_channels_block_step simd_width batch_size batch_block_max batch_subblock_max
      input_channels input_channels_block_max
      output_channels output_channels_block_max output_channels_subblock_max
      kernel packed_input_off packed_kernel_off)
    { scratch := scratch1, out := output, owrites := ([] : List Nat) }

/-- Status codes of `include/nnpack.h`, lines 16-69 (the constructors the
fully-connected operator can produce). -/
inductive nnp_status where
  | success
  | invalid_batch_size
  | invalid_input_channels
  | invalid_output_channels
  | out_of_memory
deriving DecidableEq, Repr

/-- Modelled from the spec: `validate_fully_connected_arguments` from
`include/nnpack/validation.h` (not under `src/`).  Spec 4.5/8: a zero
`batch_size`, `input_channels` or `output_channels` yields the matching
invalid-argument status (status names from `include/nnpack.h` lines 19-26);
otherwise the arguments are valid. -/
def validate_fully_connected_arguments (batch_size input_channels output_channels : Nat) :
    nnp_status :=
  if batch_size = 0 then nnp_status.invalid_batch_size
  else if input_channels = 0 then nnp_status.invalid_input_channels
  else if output_channels = 0 then nnp_status.invalid_output_channels
  else nnp_status.success

/-- The hardware profile the operator reads (`nnp_hwinfo.blocking.l1/l2/l3`
in bytes and `nnp_hwinfo.simd_width` in elements), an external collaborator
populated at library initialization. -/
structure nnp_hwinfo where
  l1 : Nat
  l2 : Nat
  l3 : Nat
  simd_width : Nat

/-- Planner value of line 267: `cache_elements_l1 / (batch_subblock_max +
output_channels_subblock_max)` with `cache_elements_l1 = l1 / sizeof(float)`. -/
def fc_input_channels_block_max (hwinfo : nnp_hwinfo) : Nat :=
  hwinfo.l1 / 4 / (batch_subblock_max + output_channels_subblock_max)

/-- Planner value of line 268:
`round_down(cache_elements_l3 / input_channels_block_max, batch_subblock_max)`. -/
def fc_batch_block_max (hwinfo : nnp_hwinfo) : Nat :=
  round_down (hwinfo.l3 / 4 / fc_input_channels_block_max hwinfo) batch_subblock_max

/-- Planner value of line 269:
`round_down(cache_elements_l2 / input_channels_block_max, output_channels_subblock_max)`. -/
def fc_output_channels_block_max (hwinfo : nnp_hwinfo) : Nat :=
  round_down (hwinfo.l2 / 4 / fc_input_channels_block_max hwinfo) output_channels_subblock_max

/-- Scratch size of the packed input in bytes, line 272:
`round_up(batch_size, batch_subblock_max) * input_channels * sizeof(float)`. -/
def fc_packed_input_size (batch_size input_channels : Nat) : Nat :=
  round_up batch_size batch_subblock_max * input_channels * 4

/-- Byte offset of the packed kernel inside the scratch allocation, line 274:
`round_up(packed_input_size, 64)`. -/
def fc_packed_kernel_offset (batch_size input_channels : Nat) : Nat :=
  round_up (fc_packed_input_size batch_size input_channels) 64

/-- Scratch size of the packed kernel in bytes, line 275. -/
def fc_packed_kernel_size (hwinfo : nnp_hwinfo) (output_channels : Nat) : Nat :=
  round_up output_channels output_channels_subblock_max * fc_input_channels_block_max hwinfo * 4

/-- Total scratch bytes, line 276. -/
def fc_memory_size (hwinfo : nnp_hwinfo) (batch_size input_channels output_channels : Nat) : Nat :=
  fc_packed_kernel_offset batch_size input_channels + fc_packed_kernel_size hwinfo output_channels

/-- Result of one call to the operator entry point: the returned status, the
final contents of the caller's output tensor, the trace of output indices
stored by the multiplication stage, and the trace of `release_memory` calls.
Each release event records whether the released pointer was null and the
size argument passed (`none` when the call reads the `memory_size` variable
before any initializer for it has executed). -/
structure fc_result where
  status : nnp_status
  output : Nat → ℚ
  owrites : List Nat
  releases : List (Bool × Option Nat)

/-- `nnp_fully_connected_output`, lines 240-302 of `fully-connected-output.c`.
`allocate_memory` models the external allocator (spec 6: generic scratch
allocation, may fail) as a size-indexed success predicate; `scratch` is the
(uninitialized) content of the allocation when it succeeds.  The function
validates, plans block sizes from the hardware profile, sizes and allocates
scratch, runs the computation, and on every path releases the scratch
exactly once at the `cleanup` label. -/
def nnp_fully_connected_output (hwinfo : nnp_hwinfo) (allocate_memory : Nat → Bool)
    (batch_size input_channels output_channels : Nat)
    (input kernel output : Nat → ℚ) (scratch : Nat → ℚ) : fc_result :=
  let status := validate_fully_connected_arguments batch_size input_channels output_channels
  if status = nnp_status.success then
    let memory_size := fc_memory_size hwinfo batch_size input_channels output_channels
    if allocate_memory memory_size then
      let st := compute_fully_connected_output hwinfo.simd_width
        batch_size (fc_batch_block_max hwinfo) batch_subblock_max
        input_channels (fc_input_channels_block_max hwinfo)
        output_channels (fc_output_channels_block_max hwinfo) output_channels_subblock_max
        input kernel output scratch
        0 (fc_packed_kernel_offset batch_size input_channels / 4)
      { status := nnp_status.success, output := st.out, owrites := st.owrites,
        releases := [(false, some memory_size)] }
    else
      { status := nnp_status.out_of_memory, output := output, owrites := [],
        releases := [(true, some memory_size)] }
  else
    { status := status, output := output, owrites := [],
      releases := [(true, none)] }

/-! ### Arithmetic facts about the rounding helpers -/

theorem round_up_dvd (n q : Nat) : q ∣ round_up n q := dvd_mul_left q _

theorem le_round_up {q : Nat} (n : Nat) (hq : 0 < q) : n ≤ round_up n q := by
  rcases Nat.eq_zero_or_pos n with h | h
  · simp [h]
  · unfold round_up
    have h1 : n + q - 1 = (n - 1) + q := by omega
    rw [h1, Nat.add_div_right _ hq]
    have h2 := Nat.div_add_mod (n - 1) q
    have h3 : (n - 1) % q < q := Nat.mod_lt _ hq
    have h4 : ((n - 1) / q + 1) * q = q * ((n - 1) / q) + q := by ring
    omega

theorem round_up_le_add {q : Nat} (n : Nat) (hq : 0 < q) : round_up n q < n + q := by
  unfold round_up
  have := Nat.div_mul_le_self (n + q - 1) q
  omega

theorem round_up_eq_self {n q : Nat} (hq : 0 < q) (h : q ∣ n) : round_up n q = n := by
  obtain ⟨k, rfl⟩ := h
  unfold round_up
  have h1 : q * k + q - 1 = q * k + (q - 1) := by omega
  rw [h1, Nat.mul_add_div hq, Nat.div_eq_of_lt (by omega), Nat.add_zero, Nat.mul_comm]

theorem round_up_mono {n m : Nat} (q : Nat) (h : n ≤ m) : round_up n q ≤ round_up m q :=
  Nat.mul_le_mul_right _ (Nat.div_le_div_right (by omega))

theorem round_up_le_of_dvd {n m q : Nat} (hq : 0 < q) (h : n ≤ m) (hd : q ∣ m) :
    round_up n q ≤ m := by
  have := round_up_mono q h
  rwa [round_up_eq_self hq hd] at this

theorem add_round_up_sub {a n q : Nat} (hq : 0 < q) (ha : q ∣ a) (h : a ≤ n) :
    a + round_up (n - a) q = round_up n q := by
  obtain ⟨j, rfl⟩ := ha
  unfold round_up
  have h1 : n + q - 1 = (n - q * j + q - 1) + q * j := by omega
  rw [h1, Nat.add_comm (n - q * j + q - 1) (q * j), Nat.mul_add_div hq]
  ring

theorem add_q_le_round_up {a n q : Nat} (hq : 0 < q) (ha : q ∣ a) (h : a < n) :
    a + q ≤ round_up n q := by
  have h1 : round_up (a + 1) q = a + q := by
    obtain ⟨j, rfl⟩ := ha
    unfold round_up
    have h2 : q * j + 1 + q - 1 = q * j + q := by omega
    rw [h2, Nat.mul_add_div hq, Nat.div_self hq]
    ring
  calc a + q = round_up (a + 1) q := h1.symm
    _ ≤ round_up n q := round_up_mono q (by omega)

theorem round_down_dvd (n q : Nat) : q ∣ round_down n q := dvd_mul_left q _

theorem round_down_le (n q : Nat) : round_down n q ≤ n := Nat.div_mul_le_self n q

/-! ### Mixed-radix decomposition helpers for the tiled loops -/

theorem mixed_radix_inj {S k r k' r' : Nat} (hr : r < S) (hr' : r' < S)
    (h : k * S + r = k' * S + r') : k = k' ∧ r = r' := by
  have hS : 0 < S := by omega
  have h1 : (S * k + r) / S = k := by
    rw [Nat.mul_add_div hS, Nat.div_eq_of_lt hr, Nat.add_zero]
  have h2 : (S * k' + r') / S = k' := by
    rw [Nat.mul_add_div hS, Nat.div_eq_of_lt hr', Nat.add_zero]
  have h3 : S * k + r = S * k' + r' := by
    rw [Nat.mul_comm S k, Nat.mul_comm S k']; exact h
  have hk : k = k' := by rw [← h1, ← h2, h3]
  subst hk
  exact ⟨rfl, by omega⟩

theorem blk_of_add {T s x : Nat} (hs : T ∣ s) (hx : x < T) : (s + x) / T * T = s := by
  obtain ⟨j, rfl⟩ := hs
  rw [Nat.mul_add_div (by omega), Nat.div_eq_of_lt hx, Nat.add_zero, Nat.mul_comm]

theorem off_of_add {T s x : Nat} (hs : T ∣ s) (hx : x < T) : (s + x) % T = x := by
  obtain ⟨j, rfl⟩ := hs
  rw [Nat.mul_add_mod, Nat.mod_eq_of_lt hx]

theorem lt_tile_count {r t k : Nat} (ht : 0 < t) : k < (r + t - 1) / t ↔ k * t < r := by
  rcases Nat.eq_zero_or_pos r with h | h
  · subst h
    have h0 : 0 + t - 1 = t - 1 := by omega
    rw [h0, Nat.div_eq_of_lt (by omega)]
    omega
  · have h1 : r + t - 1 = (r - 1) + t := by omega
    rw [h1, Nat.add_div_right _ ht, Nat.lt_succ_iff, Nat.le_div_iff_mul_le ht]
    omega

theorem mem_tileStarts {r t s : Nat} (ht : 0 < t) : s ∈ tileStarts r t ↔ t ∣ s ∧ s < r := by
  unfold tileStarts
  simp only [List.mem_map, List.mem_range]
  constructor
  · rintro ⟨k, hk, rfl⟩
    exact ⟨dvd_mul_left t k, (lt_tile_count ht).mp hk⟩
  · rintro ⟨⟨k, rfl⟩, hs⟩
    exact ⟨k, (lt_tile_count ht).mpr (by rw [Nat.mul_comm]; exact hs), Nat.mul_comm k t⟩

theorem tileStarts_nodup (r t : Nat) (ht : 0 < t) : (tileStarts r t).Nodup :=
  (List.nodup_range _).map fun a b h => by
    have : a * t = b * t := h
    exact Nat.eq_of_mul_eq_mul_right ht this

/-! ### Semantics of sequences of stores -/

theorem applyWrites_cons (pv : Nat × ℚ) (ws : List (Nat × ℚ)) (buf : Nat → ℚ) :
    applyWrites (pv :: ws) buf = applyWrites ws (Function.update buf pv.1 pv.2) := rfl

theorem applyWrites_append (w1 w2 : List (Nat × ℚ)) (buf : Nat → ℚ) :
    applyWrites (w1 ++ w2) buf = applyWrites w2 (applyWrites w1 buf) :=
  List.foldl_append _ _ _ _

theorem applyWrites_eq_of_forall_ne {ws : List (Nat × ℚ)} {q : Nat}
    (h : ∀ pv ∈ ws, pv.1 ≠ q) (buf : Nat → ℚ) : applyWrites ws buf q = buf q := by
  induction ws generalizing buf with
  | nil => rfl
  | cons pv ws ih =>
    rw [applyWrites_cons, ih fun x hx => h x (List.mem_cons_of_mem _ hx)]
    exact Function.update_noteq (Ne.symm (h pv (List.mem_cons_self pv ws))) _ _

theorem applyWrites_eq_of_mem {ws : List (Nat × ℚ)} {q : Nat} {v : ℚ}
    (hmem : (q, v) ∈ ws) (huniq : ∀ pv ∈ ws, pv.1 = q → pv.2 = v) (buf : Nat → ℚ) :
    applyWrites ws buf q = v := by
  induction ws generalizing buf with
  | nil => cases hmem
  | cons pv ws ih =>
    rw [applyWrites_cons]
    by_cases htail : ∃ v', (q, v') ∈ ws
    · obtain ⟨v', hv'⟩ := htail
      have hv : v' = v := huniq (q, v') (List.mem_cons_of_mem _ hv') rfl
      subst hv
      exact ih hv' (fun x hx hq => huniq x (List.mem_cons_of_mem _ hx) hq) _
    · have hne : ∀ pv' ∈ ws, pv'.1 ≠ q := by
        intro pv' h' hq
        exact htail ⟨pv'.2, by rw [← hq]; exact h'⟩
      rw [applyWrites_eq_of_forall_ne hne]
      rcases List.mem_cons.mp hmem with heq | hmem'
      · rw [← heq]; exact Function.update_same _ _ _
      · exact absurd ⟨v, hmem'⟩ htail

theorem foldl_applyWrites {β : Type} (l : List β) (W : β → List (Nat × ℚ)) (buf : Nat → ℚ) :
    l.foldl (fun b x => applyWrites (W x) b) buf = applyWrites (l.flatMap W) buf := by
  induction l generalizing buf with
  | nil => rfl
  | cons x l ih => rw [List.foldl_cons, List.flatMap_cons, applyWrites_append, ih]

theorem mem_shiftWrites {off : Nat} {ws : List (Nat × ℚ)} {p : Nat} {v : ℚ} :
    (p, v) ∈ shiftWrites off ws ↔ ∃ p0, p = off + p0 ∧ (p0, v) ∈ ws := by
  unfold shiftWrites
  simp only [List.mem_map, Prod.ext_iff]
  constructor
  · rintro ⟨⟨p0, v0⟩, hm, h1, h2⟩
    exact ⟨p0, h1.symm, h2 ▸ hm⟩
  · rintro ⟨p0, rfl, hm⟩
    exact ⟨(p0, v), hm, rfl, rfl⟩

/-! ### Semantics of sequences of accumulation events -/

theorem applyAccum_cons (upd : Nat) (e : Nat × ℚ) (es : List (Nat × ℚ)) (buf : Nat → ℚ) :
    applyAccum upd (e :: es) buf =
      applyAccum upd es (Function.update buf e.1 ((if upd ≠ 0 then buf e.1 else 0) + e.2)) := rfl

theorem applyAccum_append (upd : Nat) (e1 e2 : List (Nat × ℚ)) (buf : Nat → ℚ) :
    applyAccum upd (e1 ++ e2) buf = applyAccum upd e2 (applyAccum upd e1 buf) :=
  List.foldl_append _ _ _ _

theorem applyAccum_eq_of_forall_ne {es : List (Nat × ℚ)} {q : Nat} {upd : Nat}
    (h : ∀ e ∈ es, e.1 ≠ q) (buf : Nat → ℚ) : applyAccum upd es buf q = buf q := by
  induction es generalizing buf with
  | nil => rfl
  | cons e es ih =>
    rw [applyAccum_cons, ih fun x hx => h x (List.mem_cons_of_mem _ hx)]
    exact Function.update_noteq (Ne.symm (h e (List.mem_cons_self e es))) _ _

theorem applyAccum_eq_of_mem {es : List (Nat × ℚ)} {q : Nat} {v : ℚ} {upd : Nat}
    (hmem : (q, v) ∈ es) (hnd : (es.map Prod.fst).Nodup) (buf : Nat → ℚ) :
    applyAccum upd es buf q = (if upd ≠ 0 then buf q else 0) + v := by
  induction es generalizing buf with
  | nil => cases hmem
  | cons e es ih =>
    rw [List.map_cons, List.nodup_cons] at hnd
    rw [applyAccum_cons]
    rcases List.mem_cons.mp hmem with heq | hmem'
    · subst heq
      have hne : ∀ e' ∈ es, e'.1 ≠ ((q, v) : Nat × ℚ).1 := by
        intro e' h' hq
        exact hnd.1 (hq ▸ List.mem_map_of_mem Prod.fst h')
      rw [applyAccum_eq_of_forall_ne hne]
      exact Function.update_same _ _ _
    · have hqe : q ≠ e.1 := by
        intro hq
        have : (q, v).1 ∈ List.map Prod.fst es := List.mem_map_of_mem Prod.fst hmem'
        rw [hq] at this
        exact hnd.1 this
      rw [ih hmem' hnd.2, Function.update_noteq hqe]

/-! ### Characterization of the packing transforms -/

theorem mul_add_lt {a b x y : Nat} (hx : x < a) (hy : y < b) : x * b + y < a * b := by
  have h1 : x * b + y < (x + 1) * b := by
    have : (x + 1) * b = x * b + b := by ring
    omega
  have h2 : (x + 1) * b ≤ a * b := Nat.mul_le_mul_right b hx
  omega

/-- The packed position of tile element `(j, io)` — source row
`outer_block_start + j`, channel `inner_block_start + io` — written by one
packing tile, with the subblock decomposition `j = (j / max) * max + j % max`
folded into the index expression of lines 42-43. -/
def packed_tile_index (inner_dim outer_subblock_max outer_block_start inner_block_start
    outer_block_size inner_block_size j io : Nat) : Nat :=
  outer_block_start * inner_dim +
    inner_block_start * round_up outer_block_size outer_subblock_max +
    (j / outer_subblock_max * outer_subblock_max) * inner_block_size +
    io * outer_subblock_max + j % outer_subblock_max

theorem pack_input_writes_mem_oss {context : input_packing_context}
    {obs ibs obsz ibsz : Nat} {p : Nat} {v : ℚ}
    (hmax : 0 < context.outer_subblock_max) :
    (p, v) ∈ pack_input_matrix_writes context obs ibs obsz ibsz ↔
      ∃ oss io oo,
        context.outer_subblock_max ∣ oss ∧ oss < obsz ∧ io < ibsz ∧
        oo < min (obsz - oss) context.outer_subblock_max ∧
        p = obs * context.input_channels +
            ibs * round_up obsz context.outer_subblock_max +
            oss * ibsz + io * context.outer_subblock_max + oo ∧
        v = context.matrix ((obs + oss + oo) * context.input_channels + (ibs + io)) := by
  simp only [pack_input_matrix_writes, List.mem_flatMap, List.mem_map, List.mem_range,
    mem_tileStarts hmax, Prod.mk.injEq]
  constructor
  · rintro ⟨oss, ⟨hdvd, hlt⟩, io, hio, oo, hoo, hp, hv⟩
    exact ⟨oss, io, oo, hdvd, hlt, hio, hoo, hp.symm, hv.symm⟩
  · rintro ⟨oss, io, oo, hdvd, hlt, hio, hoo, hp, hv⟩
    exact ⟨oss, ⟨hdvd, hlt⟩, io, hio, oo, hoo, hp.symm, hv.symm⟩

theorem pack_input_writes_mem_j {context : input_packing_context}
    {obs ibs obsz ibsz : Nat} {p : Nat} {v : ℚ}
    (hmax : 0 < context.outer_subblock_max) :
    (p, v) ∈ pack_input_matrix_writes context obs ibs obsz ibsz ↔
      ∃ j io, j < obsz ∧ io < ibsz ∧
        p = packed_tile_index context.input_channels context.outer_subblock_max
              obs ibs obsz ibsz j io ∧
        v = context.matrix ((obs + j) * context.input_channels + (ibs + io)) := by
  rw [pack_input_writes_mem_oss hmax]
  unfold packed_tile_index
  constructor
  · rintro ⟨oss, io, oo, hdvd, hlt, hio, hoo, hp, hv⟩
    refine ⟨oss + oo, io, by omega, hio, ?_, ?_⟩
    · rw [blk_of_add hdvd (by omega), off_of_add hdvd (by omega)]
      exact hp
    · have h6 : obs + (oss + oo) = obs + oss + oo := (Nat.add_assoc obs oss oo).symm
      rw [h6]
      exact hv
  · rintro ⟨j, io, hj, hio, hp, hv⟩
    refine ⟨j / context.outer_subblock_max * context.outer_subblock_max, io,
      j % context.outer_subblock_max, dvd_mul_left _ _, ?_, hio, ?_, ?_, ?_⟩
    · exact Nat.lt_of_le_of_lt (Nat.div_mul_le_self j _) hj
    · have h1 := Nat.div_add_mod j context.outer_subblock_max
      have h2 := Nat.mod_lt j hmax
      have h3 := Nat.div_mul_le_self j context.outer_subblock_max
      have h4 : context.outer_subblock_max * (j / context.outer_subblock_max) =
          j / context.outer_subblock_max * context.outer_subblock_max := Nat.mul_comm _ _
      omega
    · exact hp
    · have h1 := Nat.div_add_mod j context.outer_subblock_max
      have h4 : context.outer_subblock_max * (j / context.outer_subblock_max) =
          j / context.outer_subblock_max * context.outer_subblock_max := Nat.mul_comm _ _
      have h5 : obs + j / context.outer_subblock_max * context.outer_subblock_max +
          j % context.outer_subblock_max = obs + j := by omega
      rw [h5]
      exact hv

theorem packed_tile_index_inj {inner_dim max obs ibs obsz ibsz : Nat}
    (hmax : 0 < max) {j j' io io' : Nat}
    (hio : io < ibsz) (hio' : io' < ibsz)
    (h : packed_tile_index inner_dim max obs ibs obsz ibsz j io =
         packed_tile_index inner_dim max obs ibs obsz ibsz j' io') :
    j = j' ∧ io = io' := by
  unfold packed_tile_index at h
  have hrel : j / max * max * ibsz + (io * max + j % max) =
      j' / max * max * ibsz + (io' * max + j' % max) := by omega
  have hassoc : ∀ x : Nat, x / max * max * ibsz = x / max * (max * ibsz) := by
    intro x; ring
  rw [hassoc j, hassoc j'] at hrel
  have hr : io * max + j % max < max * ibsz := by
    have := mul_add_lt hio (Nat.mod_lt j hmax)
    have hc : ibsz * max = max * ibsz := Nat.mul_comm _ _
    omega
  have hr' : io' * max + j' % max < max * ibsz := by
    have := mul_add_lt hio' (Nat.mod_lt j' hmax)
    have hc : ibsz * max = max * ibsz := Nat.mul_comm _ _
    omega
  obtain ⟨hdiv, hinner⟩ := mixed_radix_inj hr hr' hrel
  obtain ⟨hio2, hmod⟩ := mixed_radix_inj (Nat.mod_lt j hmax) (Nat.mod_lt j' hmax) hinner
  have h1 := Nat.div_add_mod j max
  have h2 := Nat.div_add_mod j' max
  have h3 : max * (j / max) = j / max * max := Nat.mul_comm _ _
  have h4 : max * (j' / max) = j' / max * max := Nat.mul_comm _ _
  have h5 : j / max * max = j' / max * max := by
    have := congrArg (· * max) hdiv
    simpa using this
  exact ⟨by omega, hio2⟩

/-- The slice of the kernel matrix belonging to the current input-channel
block, viewed as a standalone matrix of row length
`input_channels_block_size` (row `r`, column `c` of the view is row `r`,
column `input_channels_block_start + c` of the kernel matrix). -/
def kernel_block_view (matrix : Nat → ℚ)
    (input_channels input_channels_block_start input_channels_block_size : Nat) : Nat → ℚ :=
  fun idx => matrix (idx / input_channels_block_size * input_channels +
    (input_channels_block_start + idx % input_channels_block_size))

theorem pack_kernel_writes_eq_input (matrix : Nat → ℚ)
    (input_channels osub icbs icbsz obs obsz : Nat) :
    pack_kernel_matrix_writes
        { matrix := matrix, input_channels := input_channels, outer_subblock_max := osub,
          input_channels_block_start := icbs, input_channels_block_size := icbsz }
        obs obsz =
      pack_input_matrix_writes
        { matrix := kernel_block_view matrix input_channels icbs icbsz,
          input_channels := icbsz, outer_subblock_max := osub }
        obs 0 obsz icbsz := by
  simp only [pack_kernel_matrix_writes, pack_input_matrix_writes]
  apply List.flatMap_congr
  intro oss hoss
  apply List.flatMap_congr
  intro io hio
  apply List.map_congr_left
  intro oo hoo
  rw [List.mem_range] at hio
  have hicbsz : 0 < icbsz := by omega
  rw [Prod.mk.injEq]
  refine ⟨by ring, ?_⟩
  · unfold kernel_block_view
    have h1 : ((obs + oss + oo) * icbsz + (0 + io)) / icbsz = obs + oss + oo := by
      rw [Nat.zero_add, Nat.mul_comm, Nat.mul_add_div hicbsz, Nat.div_eq_of_lt hio,
        Nat.add_zero]
    have h2 : ((obs + oss + oo) * icbsz + (0 + io)) % icbsz = io := by
      rw [Nat.zero_add, Nat.mul_comm, Nat.mul_add_mod, Nat.mod_eq_of_lt hio]
    rw [h1, h2]

/-- C3: on every valid packing tile, `pack_input_matrix` copies, for every
outer subblock of size `min(remaining, outer_subblock_max)` and every inner
index of the inner block, the element `matrix[outer_index][inner_index]` to
the packed position `outer_block_start*inner_dim +
inner_block_start*outer_block_stride + outer_subblock_start*inner_block_size
+ inner_offset*outer_subblock_max + outer_subblock_offset` with
`outer_block_stride = round_up(outer_block_size, outer_subblock_max)`, and
performs no other store. -/
theorem pack_input_matrix_tile_spec (context : input_packing_context)
    (outer_block_start input_channels_block_start outer_block_size input_channels_block_size : Nat)
    (hmax : 1 ≤ context.outer_subblock_max)
    (hobsz : 1 ≤ outer_block_size) (hibsz : 1 ≤ input_channels_block_size) :
    ∀ p v, (p, v) ∈ pack_input_matrix_writes context outer_block_start
        input_channels_block_start outer_block_size input_channels_block_size ↔
      ∃ outer_subblock_start inner_offset outer_subblock_offset,
        context.outer_subblock_max ∣ outer_subblock_start ∧
        outer_subblock_start < outer_block_size ∧
        inner_offset < input_channels_block_size ∧
        outer_subblock_offset <
          min (outer_block_size - outer_subblock_start) context.outer_subblock_max ∧
        p = outer_block_start * context.input_channels +
            input_channels_block_start * round_up outer_block_size context.outer_subblock_max +
            outer_subblock_start * input_channels_block_size +
            inner_offset * context.outer_subblock_max + outer_subblock_offset ∧
        v = context.matrix
            ((outer_block_start + outer_subblock_start + outer_subblock_offset) *
              context.input_channels + (input_channels_block_start + inner_offset)) :=
  fun _ _ => pack_input_writes_mem_oss hmax

/-- C3 witness: the characterization applied to a concrete ragged tile
(block size 3, subblock max 4, inner dimension 5, inner block of size 2
starting at channel 1): packed position 6 receives source element
`matrix[2][1]`, i.e. the value 11 of the running-index matrix. -/
theorem pack_input_matrix_tile_spec_witness :
    (1 : Nat) ≤ 4 ∧ (1 : Nat) ≤ 3 ∧ (1 : Nat) ≤ 2 ∧
      ((6 : Nat), (11 : ℚ)) ∈ pack_input_matrix_writes
        { matrix := fun n => (n : ℚ), input_channels := 5, outer_subblock_max := 4 }
        0 1 3 2 :=
  ⟨by decide, by decide, by decide,
    (pack_input_matrix_tile_spec
        { matrix := fun n => (n : ℚ), input_channels := 5, outer_subblock_max := 4 }
        0 1 3 2 (by decide) (by decide) (by decide) 6 11).mpr
      ⟨0, 0, 2, ⟨0, by decide⟩, by decide, by decide, by decide, by decide, by norm_num⟩⟩

/-- C4: the kernel packing routine is the input packing routine with the
axes substituted — outer axis = output channels with subblock max
`output_channels_subblock_max`, inner axis = the input channels restricted
to the current block (so the inner dimension becomes
`input_channels_block_size` and the inner block starts at 0).  On every
tile the two routines then perform literally the same list of stores, so
the source-to-packed-position map of `pack_kernel_matrix` is the instance
of the `pack_input_matrix` formula under that substitution. -/
theorem pack_kernel_matrix_is_pack_input_matrix_instance :
    ∀ (matrix : Nat → ℚ)
      (input_channels outer_subblock_max input_channels_block_start
        input_channels_block_size outer_block_start outer_block_size : Nat),
      pack_kernel_matrix_writes
          { matrix := matrix, input_channels := input_channels,
            outer_subblock_max := outer_subblock_max,
            input_channels_block_start := input_channels_block_start,
            input_channels_block_size := input_channels_block_size }
          outer_block_start outer_block_size =
        pack_input_matrix_writes
          { matrix := kernel_block_view matrix input_channels input_channels_block_start
              input_channels_block_size,
            input_channels := input_channels_block_size,
            outer_subblock_max := outer_subblock_max }
          outer_block_start 0 outer_block_size input_channels_block_size :=
  fun matrix ic osub icbs icbsz obs obsz =>
    pack_kernel_writes_eq_input matrix ic osub icbs icbsz obs obsz

theorem pack_input_writes_value_uniq {context : input_packing_context}
    {obs ibs obsz ibsz : Nat} (hmax : 0 < context.outer_subblock_max)
    {j io : Nat} (hio : io < ibsz) :
    ∀ pv ∈ pack_input_matrix_writes context obs ibs obsz ibsz,
      pv.1 = packed_tile_index context.input_channels context.outer_subblock_max
          obs ibs obsz ibsz j io →
      pv.2 = context.matrix ((obs + j) * context.input_channels + (ibs + io)) := by
  rintro ⟨p, v⟩ hmem hp
  obtain ⟨j', io', hj', hio', hp', hv'⟩ := (pack_input_writes_mem_j hmax).mp hmem
  rw [hp'] at hp
  obtain ⟨hj2, hio2⟩ := packed_tile_index_inj hmax hio' hio hp
  rw [hv', hj2, hio2]

theorem pack_input_matrix_reads_back {context : input_packing_context}
    {obs ibs obsz ibsz : Nat} (hmax : 0 < context.outer_subblock_max) (buf : Nat → ℚ)
    {j io : Nat} (hj : j < obsz) (hio : io < ibsz) :
    pack_input_matrix context buf obs ibs obsz ibsz
        (packed_tile_index context.input_channels context.outer_subblock_max
          obs ibs obsz ibsz j io) =
      context.matrix ((obs + j) * context.input_channels + (ibs + io)) :=
  applyWrites_eq_of_mem
    ((pack_input_writes_mem_j hmax).mpr ⟨j, io, hj, hio, rfl, rfl⟩)
    (pack_input_writes_value_uniq hmax hio) buf

/-- C5: on every tile, the packed-position map is injective over the tile's
element set, so reading the packed buffer back through the index map (the
inverse index mapping) reconstructs the original matrix block exactly — for
any outer block size, whether or not it is an exact multiple of
`outer_subblock_max` (ragged last subblock included). -/
theorem packing_round_trip (context : input_packing_context)
    (outer_block_start inner_block_start outer_block_size inner_block_size : Nat)
    (hmax : 0 < context.outer_subblock_max) (packed0 : Nat → ℚ) :
    (∀ j j' io io', j < outer_block_size → j' < outer_block_size →
        io < inner_block_size → io' < inner_block_size →
        packed_tile_index context.input_channels context.outer_subblock_max
            outer_block_start inner_block_start outer_block_size inner_block_size j io =
          packed_tile_index context.input_channels context.outer_subblock_max
            outer_block_start inner_block_start outer_block_size inner_block_size j' io' →
        j = j' ∧ io = io') ∧
    (∀ j io, j < outer_block_size → io < inner_block_size →
        pack_input_matrix context packed0 outer_block_start inner_block_start
            outer_block_size inner_block_size
            (packed_tile_index context.input_channels context.outer_subblock_max
              outer_block_start inner_block_start outer_block_size inner_block_size j io) =
          context.matrix ((outer_block_start + j) * context.input_channels +
            (inner_block_start + io))) :=
  ⟨fun _ _ _ _ _ _ hio hio' h => packed_tile_index_inj hmax hio hio' h,
   fun _ _ hj hio => pack_input_matrix_reads_back hmax packed0 hj hio⟩

/-- C5 witness: the round trip applied to a concrete ragged tile (outer
block size 3, subblock max 4): reading packed position 6 back recovers
source element `matrix[2][1] = 11`. -/
theorem packing_round_trip_witness :
    (0 : Nat) < 4 ∧
      pack_input_matrix
          { matrix := fun n => (n : ℚ), input_channels := 5, outer_subblock_max := 4 }
          (fun _ => 0) 0 1 3 2 (packed_tile_index 5 4 0 1 3 2 2 0) = 11 :=
  ⟨by decide,
    ((packing_round_trip
        { matrix := fun n => (n : ℚ), input_channels := 5, outer_subblock_max := 4 }
        0 1 3 2 (by decide) (fun _ => 0)).2 2 0 (by decide) (by decide)).trans (by norm_num)⟩

/-! ### The block-size planner -/

theorem round_down_mod (n q : Nat) : round_down n q % q = 0 := Nat.mul_mod_left _ _

/-- C6: the planner computes `input_channels_block_max =
L1_elements / (batch_subblock_max + output_channels_subblock_max)`,
`batch_block_max = round_down(L3_elements / input_channels_block_max,
batch_subblock_max)` and `output_channels_block_max =
round_down(L2_elements / input_channels_block_max,
output_channels_subblock_max)`; both `round_down` results are multiples of
the corresponding subblock maximum, so in the tiling loops every block
except possibly the last one (every block with
`block_start + block_max ≤ size`) has a size that is an exact multiple of
its subblock maximum. -/
theorem fc_block_size_planner_spec (hwinfo : nnp_hwinfo) :
    fc_input_channels_block_max hwinfo =
        hwinfo.l1 / 4 / (batch_subblock_max + output_channels_subblock_max) ∧
    fc_batch_block_max hwinfo =
        round_down (hwinfo.l3 / 4 / fc_input_channels_block_max hwinfo) batch_subblock_max ∧
    fc_output_channels_block_max hwinfo =
        round_down (hwinfo.l2 / 4 / fc_input_channels_block_max hwinfo)
          output_channels_subblock_max ∧
    fc_batch_block_max hwinfo % batch_subblock_max = 0 ∧
    fc_output_channels_block_max hwinfo % output_channels_subblock_max = 0 ∧
    (∀ batch_size batch_block_start,
      batch_block_start + fc_batch_block_max hwinfo ≤ batch_size →
      min (batch_size - batch_block_start) (fc_batch_block_max hwinfo) %
        batch_subblock_max = 0) ∧
    (∀ output_channels output_channels_block_start,
      output_channels_block_start + fc_output_channels_block_max hwinfo ≤ output_channels →
      min (output_channels - output_channels_block_start) (fc_output_channels_block_max hwinfo) %
        output_channels_subblock_max = 0) := by
  refine ⟨rfl, rfl, rfl, round_down_mod _ _, round_down_mod _ _, ?_, ?_⟩
  · intro batch_size batch_block_start h
    rw [Nat.min_eq_right (by omega)]
    exact round_down_mod _ _
  · intro output_channels output_channels_block_start h
    rw [Nat.min_eq_right (by omega)]
    exact round_down_mod _ _

/-! ### Microkernel dispatch and the column mask -/

theorem mask_enabled_iff {n : Nat} (h1 : 1 ≤ n) (h2 : n ≤ 24) :
    ∀ oo, oo < (sgemm_col n 8 + 1) * 8 →
      (sgemm_col_enabled ((sgemm_col n 8 + 1) * 8) 8
        (fun j => column_mask_bit (mask_shift n 8 + j)) oo = true ↔ oo < n) := by
  interval_cases n <;> decide

theorem mask_shift_eq {n : Nat} (h1 : 1 ≤ n) (h2 : n ≤ 24) :
    mask_shift n 8 = (8 - n % 8) % 8 := by
  interval_cases n <;> decide

theorem mask_disabled_count {n : Nat} (h1 : 1 ≤ n) (h2 : n ≤ 24) :
    ((List.range 8).filter fun lane => !column_mask_bit (mask_shift n 8 + lane)).length =
      round_up n 8 - n := by
  interval_cases n <;> decide

theorem sgemm_col_width {n : Nat} (h1 : 1 ≤ n) (h2 : n ≤ 24) :
    (sgemm_col n 8 + 1) * 8 = round_up n 8 := by
  interval_cases n <;> decide

/-- C7: for every multiplication subblock with `batch_subblock_size ∈ [1,4]`
and `output_channels_subblock_size ∈ [1,24]` (SIMD width 8), the
multiplication stage selects the dispatch-table row
`batch_subblock_size - 1` (whose kernels compute exactly
`batch_subblock_size` rows) and column
`(output_channels_subblock_size - 1) / simd_width` (whose kernel width is
`round_up(output_channels_subblock_size, simd_width)`), and advances the
column-mask pointer by `(-output_channels_subblock_size) mod simd_width`
lanes — which disables exactly the `kernel width -
output_channels_subblock_size` lanes by which the kernel overshoots the
residual subblock, leaving precisely the columns below
`output_channels_subblock_size` enabled. -/
theorem sgemm_dispatch_and_mask_spec
    (batch_subblock_size output_channels_subblock_size : Nat)
    (hb1 : 1 ≤ batch_subblock_size) (hb4 : batch_subblock_size ≤ 4)
    (hn1 : 1 ≤ output_channels_subblock_size) (hn24 : output_channels_subblock_size ≤ 24) :
    sgemm_row batch_subblock_size = batch_subblock_size - 1 ∧
    sgemm_col output_channels_subblock_size 8 = (output_channels_subblock_size - 1) / 8 ∧
    sgemm_row batch_subblock_size + 1 = batch_subblock_size ∧
    (sgemm_col output_channels_subblock_size 8 + 1) * 8 =
      round_up output_channels_subblock_size 8 ∧
    mask_shift output_channels_subblock_size 8 = (8 - output_channels_subblock_size % 8) % 8 ∧
    ((List.range 8).filter fun lane =>
        !column_mask_bit (mask_shift output_channels_subblock_size 8 + lane)).length =
      round_up output_channels_subblock_size 8 - output_channels_subblock_size ∧
    (∀ oo, oo < (sgemm_col output_channels_subblock_size 8 + 1) * 8 →
      (sgemm_col_enabled ((sgemm_col output_channels_subblock_size 8 + 1) * 8) 8
          (fun j => column_mask_bit (mask_shift output_channels_subblock_size 8 + j)) oo = true ↔
        oo < output_channels_subblock_size)) :=
  ⟨rfl, rfl, by unfold sgemm_row; omega, sgemm_col_width hn1 hn24,
    mask_shift_eq hn1 hn24, mask_disabled_count hn1 hn24, mask_enabled_iff hn1 hn24⟩

/-- C7 witness: the dispatch rule at the concrete residual subblock
`batch_subblock_size = 3`, `output_channels_subblock_size = 11`: row 2 is
selected, column 1 (the width-16 kernel), the mask pointer advances by
5 lanes and lanes 11..15 of the kernel are disabled. -/
theorem sgemm_dispatch_and_mask_spec_witness :
    (1 : Nat) ≤ 3 ∧ (3 : Nat) ≤ 4 ∧ (1 : Nat) ≤ 11 ∧ (11 : Nat) ≤ 24 ∧
      (sgemm_row 3 = 2 ∧ sgemm_col 11 8 = 1 ∧ mask_shift 11 8 = 5) :=
  ⟨by decide, by decide, by decide, by decide, by
    obtain ⟨h1, h2, -, -, h5, -, -⟩ :=
      sgemm_dispatch_and_mask_spec 3 11 (by decide) (by decide) (by decide) (by decide)
    exact ⟨by rw [h1], by rw [h2], by rw [h5]⟩⟩

/-- C6 witness: the planner facts applied to a concrete hardware profile
(L1 = 224 B, L2 = 192 B, L3 = 32 B): block maxima (2, 4, 24), and the
non-last blocks of concrete tilings over sizes 5 and 50 are exact multiples
of their subblock maxima. -/
theorem fc_block_size_planner_spec_witness :
    0 + fc_batch_block_max ⟨224, 192, 32, 8⟩ ≤ 5 ∧
    min (5 - 0) (fc_batch_block_max ⟨224, 192, 32, 8⟩) % batch_subblock_max = 0 ∧
    24 + fc_output_channels_block_max ⟨224, 192, 32, 8⟩ ≤ 50 ∧
    min (50 - 24) (fc_output_channels_block_max ⟨224, 192, 32, 8⟩) %
      output_channels_subblock_max = 0 :=
  ⟨by decide,
    (fc_block_size_planner_spec ⟨224, 192, 32, 8⟩).2.2.2.2.2.1 5 0 (by decide),
    by decide,
    (fc_block_size_planner_spec ⟨224, 192, 32, 8⟩).2.2.2.2.2.2 50 24 (by decide)⟩

/-! ### Entry-point error paths -/

/-- C2: a call with a zero shape argument returns the matching
invalid-argument status (`batch_size` checked first, then
`input_channels`, then `output_channels`), leaves the caller's output
buffer untouched, performs no computation (empty store trace), and its
result does not depend on the allocator or on the scratch contents — no
allocation or computation happens before the short-circuit to cleanup. -/
theorem fc_invalid_argument_spec (hwinfo : nnp_hwinfo) (allocate_memory : Nat → Bool)
    (batch_size input_channels output_channels : Nat)
    (input kernel output : Nat → ℚ) (scratch : Nat → ℚ)
    (h : batch_size = 0 ∨ input_channels = 0 ∨ output_channels = 0) :
    (nnp_fully_connected_output hwinfo allocate_memory batch_size input_channels
        output_channels input kernel output scratch).status =
      (if batch_size = 0 then nnp_status.invalid_batch_size
       else if input_channels = 0 then nnp_status.invalid_input_channels
       else nnp_status.invalid_output_channels) ∧
    (nnp_fully_connected_output hwinfo allocate_memory batch_size input_channels
        output_channels input kernel output scratch).output = output ∧
    (nnp_fully_connected_output hwinfo allocate_memory batch_size input_channels
        output_channels input kernel output scratch).owrites = [] ∧
    (∀ allocate_memory' scratch',
      nnp_fully_connected_output hwinfo allocate_memory' batch_size input_channels
          output_channels input kernel output scratch' =
        nnp_fully_connected_output hwinfo allocate_memory batch_size input_channels
          output_channels input kernel output scratch) := by
  have hv : validate_fully_connected_arguments batch_size input_channels output_channels =
      (if batch_size = 0 then nnp_status.invalid_batch_size
       else if input_channels = 0 then nnp_status.invalid_input_channels
       else nnp_status.invalid_output_channels) := by
    unfold validate_fully_connected_arguments
    rcases h with h | h | h <;> simp [h] <;> split <;> simp_all <;> split <;> simp_all
  have hne : validate_fully_connected_arguments batch_size input_channels output_channels ≠
      nnp_status.success := by
    rw [hv]
    rcases h with h | h | h <;> split <;> simp_all <;> split <;> simp_all
  refine ⟨?_, ?_, ?_, ?_⟩
  · simp only [nnp_fully_connected_output, if_neg hne]
    exact hv
  · simp only [nnp_fully_connected_output, if_neg hne]
  · simp only [nnp_fully_connected_output, if_neg hne]
  · intro allocate_memory' scratch'
    simp only [nnp_fully_connected_output, if_neg hne]

/-- C2 witness: the concrete call with `input_channels = 0` (and nonzero
batch) returns `nnp_status_invalid_input_channels` and leaves the output
map untouched. -/
theorem fc_invalid_argument_spec_witness :
    ((3 : Nat) = 0 ∨ (0 : Nat) = 0 ∨ (2 : Nat) = 0) ∧
      (nnp_fully_connected_output ⟨224, 192, 32, 8⟩ (fun _ => true) 3 0 2
          (fun _ => 0) (fun _ => 0) (fun n => (n : ℚ)) (fun _ => 0)).status =
        nnp_status.invalid_input_channels ∧
      (nnp_fully_connected_output ⟨224, 192, 32, 8⟩ (fun _ => true) 3 0 2
          (fun _ => 0) (fun _ => 0) (fun n => (n : ℚ)) (fun _ => 0)).output =
        ((fun n => (n : ℚ)) : Nat → ℚ) := by
  have h := fc_invalid_argument_spec ⟨224, 192, 32, 8⟩ (fun _ => true) 3 0 2
    (fun _ => 0) (fun _ => 0) (fun n => (n : ℚ)) (fun _ => 0) (Or.inr (Or.inl rfl))
  exact ⟨Or.inr (Or.inl rfl), h.1, h.2.1⟩

/-- C8: when the shape arguments are valid but the allocation of
`round_up(round_up(batch_size, batch_subblock_max) * input_channels * 4, 64)
+ round_up(output_channels, output_channels_subblock_max) *
input_channels_block_max * 4` scratch bytes fails, the call returns
`nnp_status_out_of_memory` and writes nothing to the output tensor. -/
theorem fc_out_of_memory_spec (hwinfo : nnp_hwinfo) (allocate_memory : Nat → Bool)
    (batch_size input_channels output_channels : Nat)
    (input kernel output : Nat → ℚ) (scratch : Nat → ℚ)
    (hb : 1 ≤ batch_size) (hic : 1 ≤ input_channels) (hoc : 1 ≤ output_channels)
    (halloc : allocate_memory
        (round_up (round_up batch_size batch_subblock_max * input_channels * 4) 64 +
          round_up output_channels output_channels_subblock_max *
            fc_input_channels_block_max hwinfo * 4) = false) :
    (nnp_fully_connected_output hwinfo allocate_memory batch_size input_channels
        output_channels input kernel output scratch).status = nnp_status.out_of_memory ∧
    (nnp_fully_connected_output hwinfo allocate_memory batch_size input_channels
        output_channels input kernel output scratch).output = output ∧
    (nnp_fully_connected_output hwinfo allocate_memory batch_size input_channels
        output_channels input kernel output scratch).owrites = [] := by
  have hv : validate_fully_connected_arguments batch_size input_channels output_channels =
      nnp_status.success := by
    unfold validate_fully_connected_arguments
    rw [if_neg (by omega), if_neg (by omega), if_neg (by omega)]
  have hms : fc_memory_size hwinfo batch_size input_channels output_channels =
      round_up (round_up batch_size batch_subblock_max * input_channels * 4) 64 +
        round_up output_channels output_channels_subblock_max *
          fc_input_channels_block_max hwinfo * 4 := rfl
  rw [← hms] at halloc
  have hentry : nnp_fully_connected_output hwinfo allocate_memory batch_size input_channels
      output_channels input kernel output scratch =
      { status := nnp_status.out_of_memory, output := output, owrites := [],
        releases := [(true,
          some (fc_memory_size hwinfo batch_size input_channels output_channels))] } := by
    simp only [nnp_fully_connected_output, hv, if_pos rfl, halloc, Bool.false_eq_true, if_false,
      if_true]
  rw [hentry]
  exact ⟨rfl, rfl, rfl⟩

/-- C8 witness: a concrete valid-shape call whose allocator refuses the
computed scratch size returns out-of-memory with the output untouched. -/
theorem fc_out_of_memory_spec_witness :
    (1 : Nat) ≤ 3 ∧ (1 : Nat) ≤ 5 ∧ (1 : Nat) ≤ 2 ∧
      ((fun _ => false) (round_up (round_up 3 batch_subblock_max * 5 * 4) 64 +
          round_up 2 output_channels_subblock_max *
            fc_input_channels_block_max ⟨224, 192, 32, 8⟩ * 4) : Bool) = false ∧
      (nnp_fully_connected_output ⟨224, 192, 32, 8⟩ (fun _ => false) 3 5 2
          (fun _ => 0) (fun _ => 0) (fun n => (n : ℚ)) (fun _ => 0)).status =
        nnp_status.out_of_memory ∧
      (nnp_fully_connected_output ⟨224, 192, 32, 8⟩ (fun _ => false) 3 5 2
          (fun _ => 0) (fun _ => 0) (fun n => (n : ℚ)) (fun _ => 0)).output =
        ((fun n => (n : ℚ)) : Nat → ℚ) := by
  have h := fc_out_of_memory_spec ⟨224, 192, 32, 8⟩ (fun _ => false) 3 5 2
    (fun _ => 0) (fun _ => 0) (fun n => (n : ℚ)) (fun _ => 0)
    (by decide) (by decide) (by decide) rfl
  exact ⟨by decide, by decide, by decide, rfl, h.1, h.2.1⟩

/-- C9, evaluated on the failing path and contrasted with the other paths:
on the validation-failure path (failing input `batch_size = 0`,
`input_channels = output_channels = 1`) the single cleanup call
`release_memory(memory_block, memory_size)` of line 299 receives the null
`memory_block` of line 250, but the `goto cleanup` of line 256 jumps over
the initializer of `memory_size` (line 276), so its size argument is the
indeterminate value of an uninitialized variable (`none` in the model) —
not a well-defined size.  The release does happen exactly once on every
exit path, and the allocation-failure path does pass the computed size. -/
theorem fc_release_trace_spec :
    (nnp_fully_connected_output ⟨224, 192, 32, 8⟩ (fun _ => true) 0 1 1
        (fun _ => 0) (fun _ => 0) (fun _ => 0) (fun _ => 0)).releases =
      [(true, (none : Option Nat))] ∧
    (∀ hwinfo allocate_memory batch_size input_channels output_channels
        input kernel output scratch,
      (nnp_fully_connected_output hwinfo allocate_memory batch_size input_channels
          output_channels input kernel (output : Nat → ℚ) scratch).releases.length = 1) ∧
    (∀ hwinfo batch_size input_channels output_channels input kernel output scratch,
      1 ≤ batch_size → 1 ≤ input_channels → 1 ≤ output_channels →
      (nnp_fully_connected_output hwinfo (fun _ => false) batch_size input_channels
          output_channels input kernel (output : Nat → ℚ) scratch).releases =
        [(true, some (fc_memory_size hwinfo batch_size input_channels output_channels))]) := by
  refine ⟨rfl, ?_, ?_⟩
  · intro hwinfo allocate_memory batch_size input_channels output_channels
      input kernel output scratch
    simp only [nnp_fully_connected_output]
    split
    · split <;> rfl
    · rfl
  · intro hwinfo batch_size input_channels output_channels input kernel output scratch hb hic hoc
    have hv : validate_fully_connected_arguments batch_size input_channels output_channels =
        nnp_status.success := by
      unfold validate_fully_connected_arguments
      rw [if_neg (by omega), if_neg (by omega), if_neg (by omega)]
    simp only [nnp_fully_connected_output, hv, if_pos rfl, Bool.false_eq_true, if_false,
      if_true]

/-! ### Global layout of the packed input and packed kernel buffers -/

/-- The flat offset inside the packed-input buffer at which the input
packing stage stores input element `(b, i)`: the 2D grid over
`(batch_size, input_channels)` with tile sizes `(batch_block_max,
input_channels_block_max)` places `(b, i)` in the tile starting at
`(b / bbm * bbm, i / icbm * icbm)`, at the `packed_tile_index` position
inside that tile. -/
def fc_packed_input_index
    (batch_size input_channels batch_block_max input_channels_block_max b i : Nat) : Nat :=
  packed_tile_index input_channels batch_subblock_max
    (b / batch_block_max * batch_block_max)
    (i / input_channels_block_max * input_channels_block_max)
    (min (batch_size - b / batch_block_max * batch_block_max) batch_block_max)
    (min (input_channels - i / input_channels_block_max * input_channels_block_max)
      input_channels_block_max)
    (b - b / batch_block_max * batch_block_max)
    (i - i / input_channels_block_max * input_channels_block_max)

/-- All stores of the input packing stage (stage 1 of
`compute_fully_connected_output`): the 2D tile grid flat-mapped through
`pack_input_matrix_writes`. -/
def fc_input_packing_writes (input : Nat → ℚ)
    (batch_size input_channels batch_block_max input_channels_block_max : Nat) :
    List (Nat × ℚ) :=
  (tilePairs batch_size input_channels batch_block_max input_channels_block_max).flatMap
    fun ab => pack_input_matrix_writes
      { matrix := input, input_channels := input_channels,
        outer_subblock_max := batch_subblock_max }
      ab.1 ab.2 (min (batch_size - ab.1) batch_block_max)
      (min (input_channels - ab.2) input_channels_block_max)

/-- The flat offset inside the packed-kernel buffer at which the kernel
packing stage for one input-channel block stores kernel element
`(o, input_channels_block_start + l)`. -/
def fc_packed_kernel_index (input_channels_block_size o l : Nat) : Nat :=
  o / output_channels_subblock_max * output_channels_subblock_max * input_channels_block_size +
    l * output_channels_subblock_max + o % output_channels_subblock_max

/-- All stores of the kernel packing stage for one input-channel block:
the 1D tile grid over `output_channels` flat-mapped through
`pack_kernel_matrix_writes`. -/
def fc_kernel_packing_writes (kernel : Nat → ℚ)
    (input_channels input_channels_block_start input_channels_block_size
     output_channels output_channels_block_max : Nat) : List (Nat × ℚ) :=
  (tileStarts output_channels output_channels_block_max).flatMap fun obs =>
    pack_kernel_matrix_writes
      { matrix := kernel, input_channels := input_channels,
        outer_subblock_max := output_channels_subblock_max,
        input_channels_block_start := input_channels_block_start,
        input_channels_block_size := input_channels_block_size }
      obs (min (output_channels - obs) output_channels_block_max)

theorem shiftWrites_zero (ws : List (Nat × ℚ)) : shiftWrites 0 ws = ws := by
  unfold shiftWrites
  have h : ∀ pv : Nat × ℚ, ((0 + pv.1, pv.2) : Nat × ℚ) = pv := by
    rintro ⟨p, v⟩
    simp
  simp [h]

theorem shiftWrites_flatMap {β : Type} (off : Nat) (l : List β) (W : β → List (Nat × ℚ)) :
    shiftWrites off (l.flatMap W) = l.flatMap fun x => shiftWrites off (W x) :=
  List.map_flatMap _ _ _

theorem mem_tilePairs {ri rj ti tj : Nat} {ab : Nat × Nat} (hti : 0 < ti) (htj : 0 < tj) :
    ab ∈ tilePairs ri rj ti tj ↔
      (ti ∣ ab.1 ∧ ab.1 < ri) ∧ (tj ∣ ab.2 ∧ ab.2 < rj) := by
  unfold tilePairs
  simp only [List.mem_flatMap, List.mem_map]
  constructor
  · rintro ⟨a, ha, b, hb, rfl⟩
    exact ⟨(mem_tileStarts hti).mp ha, (mem_tileStarts htj).mp hb⟩
  · rintro ⟨ha, hb⟩
    exact ⟨ab.1, (mem_tileStarts hti).mpr ha, ab.2, (mem_tileStarts htj).mpr hb, rfl⟩

/-- Stage 1 of `compute_fully_connected_output` is exactly the flattened
input-packing store list applied to the scratch buffer. -/
theorem fc_stage1_eq (input : Nat → ℚ)
    (batch_size input_channels batch_block_max input_channels_block_max off : Nat)
    (scratch : Nat → ℚ) :
    pthreadpool_compute_2d_tiled
      (fun buf outer_block_start input_channels_block_start outer_block_size
          input_channels_block_size =>
        applyWrites
          (shiftWrites off
            (pack_input_matrix_writes
              { matrix := input, input_channels := input_channels,
                outer_subblock_max := batch_subblock_max }
              outer_block_start input_channels_block_start outer_block_size
              input_channels_block_size)) buf)
      scratch batch_size input_channels batch_block_max input_channels_block_max =
    applyWrites
      (shiftWrites off
        (fc_input_packing_writes input batch_size input_channels batch_block_max
          input_channels_block_max)) scratch := by
  unfold pthreadpool_compute_2d_tiled fc_input_packing_writes
  rw [shiftWrites_flatMap]
  exact foldl_applyWrites _ _ _

/-- The kernel packing pass for one input-channel block is exactly the
flattened kernel-packing store list applied to the scratch buffer. -/
theorem fc_kernel_stage_eq (kernel : Nat → ℚ)
    (input_channels input_channels_block_start input_channels_block_size
     output_channels output_channels_block_max off : Nat) (scratch : Nat → ℚ) :
    pthreadpool_compute_1d_tiled
      (fun buf outer_block_start outer_block_size =>
        applyWrites
          (shiftWrites off
            (pack_kernel_matrix_writes
              { matrix := kernel, input_channels := input_channels,
                outer_subblock_max := output_channels_subblock_max,
                input_channels_block_start := input_channels_block_start,
                input_channels_block_size := input_channels_block_size }
              outer_block_start outer_block_size)) buf)
      scratch output_channels output_channels_block_max =
    applyWrites
      (shiftWrites off
        (fc_kernel_packing_writes kernel input_channels input_channels_block_start
          input_channels_block_size output_channels output_channels_block_max)) scratch := by
  unfold pthreadpool_compute_1d_tiled fc_kernel_packing_writes
  rw [shiftWrites_flatMap]
  exact foldl_applyWrites _ _ _

theorem fc_ppi_expand {batch ic bbm icbm b i : Nat} :
    fc_packed_input_index batch ic bbm icbm b i =
      b / bbm * (bbm * ic) +
        (i / icbm *
            (icbm * round_up (min (batch - b / bbm * bbm) bbm) batch_subblock_max) +
          (b % bbm / batch_subblock_max *
              (batch_subblock_max * min (ic - i / icbm * icbm) icbm) +
            ((i - i / icbm * icbm) * batch_subblock_max +
              b % bbm % batch_subblock_max))) := by
  unfold fc_packed_input_index packed_tile_index
  have hbb : b - b / bbm * bbm = b % bbm := by
    have h1 := Nat.div_add_mod b bbm
    have h3 : bbm * (b / bbm) = b / bbm * bbm := Nat.mul_comm _ _
    omega
  rw [hbb]
  ring

theorem fc_ppi_bounds {batch ic bbm icbm b i : Nat}
    (hbbm : 0 < bbm) (hicbm : 0 < icbm) (hbbm4 : batch_subblock_max ∣ bbm)
    (hb : b < batch) (hi : i < ic) :
    (i - i / icbm * icbm) * batch_subblock_max + b % bbm % batch_subblock_max <
        batch_subblock_max * min (ic - i / icbm * icbm) icbm ∧
    b % bbm / batch_subblock_max * (batch_subblock_max * min (ic - i / icbm * icbm) icbm) +
        ((i - i / icbm * icbm) * batch_subblock_max + b % bbm % batch_subblock_max) <
      round_up (min (batch - b / bbm * bbm) bbm) batch_subblock_max *
        min (ic - i / icbm * icbm) icbm ∧
    b % bbm / batch_subblock_max * (batch_subblock_max * min (ic - i / icbm * icbm) icbm) +
        ((i - i / icbm * icbm) * batch_subblock_max + b % bbm % batch_subblock_max) <
      icbm * round_up (min (batch - b / bbm * bbm) bbm) batch_subblock_max ∧
    i / icbm * (icbm * round_up (min (batch - b / bbm * bbm) bbm) batch_subblock_max) +
        (b % bbm / batch_subblock_max * (batch_subblock_max * min (ic - i / icbm * icbm) icbm) +
          ((i - i / icbm * icbm) * batch_subblock_max + b % bbm % batch_subblock_max)) <
      round_up (min (batch - b / bbm * bbm) bbm) batch_subblock_max * ic ∧
    i / icbm * (icbm * round_up (min (batch - b / bbm * bbm) bbm) batch_subblock_max) +
        (b % bbm / batch_subblock_max * (batch_subblock_max * min (ic - i / icbm * icbm) icbm) +
          ((i - i / icbm * icbm) * batch_subblock_max + b % bbm % batch_subblock_max)) <
      bbm * ic := by
  set ibs := i / icbm * icbm with hibs_def
  set ibsz := min (ic - ibs) icbm with hibsz_def
  set bbs := b / bbm * bbm with hbbs_def
  set bbsz := min (batch - bbs) bbm with hbbsz_def
  set stride := round_up bbsz batch_subblock_max with hstride_def
  set io := i - ibs with hio_def
  set j := b % bbm with hj_def
  have hibs_le : ibs ≤ i := Nat.div_mul_le_self i icbm
  have hbbs_le : bbs ≤ b := Nat.div_mul_le_self b bbm
  have hio_lt : io < ibsz := by
    have h1 := Nat.div_add_mod i icbm
    have h2 := Nat.mod_lt i hicbm
    have h3 : icbm * (i / icbm) = ibs := Nat.mul_comm _ _
    omega
  have hj_lt : j < bbsz := by
    have h1 := Nat.div_add_mod b bbm
    have h2 := Nat.mod_lt b hbbm
    have h3 : bbm * (b / bbm) = bbs := Nat.mul_comm _ _
    omega
  have hibsz_pos : 0 < ibsz := by omega
  have h4 : (0 : Nat) < batch_subblock_max := by decide
  have hr2 : io * batch_subblock_max + j % batch_subblock_max <
      batch_subblock_max * ibsz := by
    have := mul_add_lt hio_lt (Nat.mod_lt j h4)
    have hc : ibsz * batch_subblock_max = batch_subblock_max * ibsz := Nat.mul_comm _ _
    omega
  have hstep : j / batch_subblock_max * batch_subblock_max + batch_subblock_max ≤ stride := by
    apply add_q_le_round_up h4 (dvd_mul_left _ _)
    have := Nat.div_mul_le_self j batch_subblock_max
    omega
  have hA_lt : j / batch_subblock_max * (batch_subblock_max * ibsz) +
      (io * batch_subblock_max + j % batch_subblock_max) < stride * ibsz := by
    have h5 : j / batch_subblock_max * (batch_subblock_max * ibsz) +
        batch_subblock_max * ibsz =
        (j / batch_subblock_max * batch_subblock_max + batch_subblock_max) * ibsz := by ring
    have h6 : (j / batch_subblock_max * batch_subblock_max + batch_subblock_max) * ibsz ≤
        stride * ibsz := Nat.mul_le_mul_right _ hstep
    omega
  have hA_lt2 : j / batch_subblock_max * (batch_subblock_max * ibsz) +
      (io * batch_subblock_max + j % batch_subblock_max) < icbm * stride := by
    have h7 : stride * ibsz ≤ stride * icbm :=
      Nat.mul_le_mul_left _ (min_le_right _ _)
    have h8 : stride * icbm = icbm * stride := Nat.mul_comm _ _
    omega
  have hR_lt : i / icbm * (icbm * stride) +
      (j / batch_subblock_max * (batch_subblock_max * ibsz) +
        (io * batch_subblock_max + j % batch_subblock_max)) < stride * ic := by
    have h9 : i / icbm * (icbm * stride) = ibs * stride := by
      rw [hibs_def]; ring
    have h10 : ibs * stride + stride * ibsz = stride * (ibs + ibsz) := by ring
    have h11 : stride * (ibs + ibsz) ≤ stride * ic := by
      apply Nat.mul_le_mul_left
      have := min_le_left (ic - ibs) icbm
      omega
    omega
  have hstride_le : stride ≤ bbm :=
    round_up_le_of_dvd h4 (min_le_right _ _) hbbm4
  have hR_lt2 : i / icbm * (icbm * stride) +
      (j / batch_subblock_max * (batch_subblock_max * ibsz) +
        (io * batch_subblock_max + j % batch_subblock_max)) < bbm * ic := by
    have h12 : stride * ic ≤ bbm * ic := Nat.mul_le_mul_right _ hstride_le
    omega
  exact ⟨hr2, hA_lt, hA_lt2, hR_lt, hR_lt2⟩

theorem batch_subblock_max_pos : 0 < batch_subblock_max := by decide

theorem output_channels_subblock_max_pos : 0 < output_channels_subblock_max := by decide

theorem fc_packed_input_index_inj {batch ic bbm icbm : Nat}
    (hbbm : 0 < bbm) (hicbm : 0 < icbm) (hbbm4 : batch_subblock_max ∣ bbm)
    {b b' i i' : Nat} (hb : b < batch) (hb' : b' < batch) (hi : i < ic) (hi' : i' < ic)
    (h : fc_packed_input_index batch ic bbm icbm b i =
         fc_packed_input_index batch ic bbm icbm b' i') :
    b = b' ∧ i = i' := by
  rw [fc_ppi_expand, fc_ppi_expand] at h
  obtain ⟨hr2, -, hA2, -, hR2⟩ := fc_ppi_bounds hbbm hicbm hbbm4 hb hi
  obtain ⟨hr2', -, hA2', -, hR2'⟩ := fc_ppi_bounds hbbm hicbm hbbm4 hb' hi'
  obtain ⟨hdb, hR⟩ := mixed_radix_inj hR2 hR2' h
  rw [← hdb] at hR hA2'
  obtain ⟨hdi, hA⟩ := mixed_radix_inj hA2 hA2' hR
  rw [← hdi] at hA hr2'
  obtain ⟨hdj, hr⟩ := mixed_radix_inj hr2 hr2' hA
  have h4 : (0 : Nat) < batch_subblock_max := by decide
  obtain ⟨hdio, hdm⟩ := mixed_radix_inj (Nat.mod_lt (b % bbm) h4) (Nat.mod_lt (b' % bbm) h4) hr
  constructor
  · have e1 := Nat.div_add_mod b bbm
    have e2 := Nat.div_add_mod b' bbm
    have e3 := Nat.div_add_mod (b % bbm) batch_subblock_max
    have e4 := Nat.div_add_mod (b' % bbm) batch_subblock_max
    have e5 : bbm * (b / bbm) = bbm * (b' / bbm) := by rw [hdb]
    have e6 : batch_subblock_max * (b % bbm / batch_subblock_max) =
        batch_subblock_max * (b' % bbm / batch_subblock_max) := by rw [hdj]
    omega
  · have c1 : icbm * (i / icbm) = i / icbm * icbm := Nat.mul_comm _ _
    have c2 : icbm * (i' / icbm) = i' / icbm * icbm := Nat.mul_comm _ _
    have e1 := Nat.div_add_mod i icbm
    have e2 := Nat.div_add_mod i' icbm
    have e5 : icbm * (i / icbm) = icbm * (i' / icbm) := by rw [hdi]
    have e7 := Nat.div_mul_le_self i icbm
    have e8 := Nat.div_mul_le_self i' icbm
    omega

theorem fc_packed_input_index_lt {batch ic bbm icbm : Nat}
    (hbbm : 0 < bbm) (hicbm : 0 < icbm) (hbbm4 : batch_subblock_max ∣ bbm)
    {b i : Nat} (hb : b < batch) (hi : i < ic) :
    fc_packed_input_index batch ic bbm icbm b i <
      round_up batch batch_subblock_max * ic := by
  rw [fc_ppi_expand]
  obtain ⟨-, -, -, hR, -⟩ := fc_ppi_bounds hbbm hicbm hbbm4 hb hi
  have h4 : (0 : Nat) < batch_subblock_max := by decide
  have hdvd_bbs : batch_subblock_max ∣ b / bbm * bbm :=
    dvd_trans hbbm4 (dvd_mul_left bbm (b / bbm))
  have hbbs_le : b / bbm * bbm ≤ b := Nat.div_mul_le_self b bbm
  have hkey : b / bbm * bbm + round_up (min (batch - b / bbm * bbm) bbm) batch_subblock_max ≤
      round_up batch batch_subblock_max := by
    rcases le_or_lt (batch - b / bbm * bbm) bbm with hcase | hcase
    · rw [min_eq_left hcase]
      have := add_round_up_sub h4 hdvd_bbs (le_trans hbbs_le (le_of_lt hb))
      omega
    · rw [min_eq_right (le_of_lt hcase), round_up_eq_self h4 hbbm4]
      have := le_round_up batch h4
      omega
  have hmul : b / bbm * (bbm * ic) = b / bbm * bbm * ic := by ring
  have hsum : b / bbm * bbm * ic +
      round_up (min (batch - b / bbm * bbm) bbm) batch_subblock_max * ic =
      (b / bbm * bbm + round_up (min (batch - b / bbm * bbm) bbm) batch_subblock_max) * ic := by
    ring
  have hle : (b / bbm * bbm + round_up (min (batch - b / bbm * bbm) bbm) batch_subblock_max) *
      ic ≤ round_up batch batch_subblock_max * ic := Nat.mul_le_mul_right _ hkey
  omega

theorem fc_input_packing_writes_mem {input : Nat → ℚ} {batch ic bbm icbm p : Nat} {v : ℚ}
    (hbbm : 0 < bbm) (hicbm : 0 < icbm) :
    (p, v) ∈ fc_input_packing_writes input batch ic bbm icbm ↔
      ∃ b i, b < batch ∧ i < ic ∧
        p = fc_packed_input_index batch ic bbm icbm b i ∧ v = input (b * ic + i) := by
  unfold fc_input_packing_writes
  rw [List.mem_flatMap]
  constructor
  · rintro ⟨ab, hab, hm⟩
    obtain ⟨⟨hd1, hl1⟩, hd2, hl2⟩ := (mem_tilePairs hbbm hicbm).mp hab
    obtain ⟨j, io, hj, hio, hp, hv⟩ := (pack_input_writes_mem_j batch_subblock_max_pos).mp hm
    have hjb : j < bbm := lt_of_lt_of_le hj (min_le_right _ _)
    have hioi : io < icbm := lt_of_lt_of_le hio (min_le_right _ _)
    have hjb2 : j < batch - ab.1 := lt_of_lt_of_le hj (min_le_left _ _)
    have hioi2 : io < ic - ab.2 := lt_of_lt_of_le hio (min_le_left _ _)
    refine ⟨ab.1 + j, ab.2 + io, by omega, by omega, ?_, hv⟩
    rw [hp]
    unfold fc_packed_input_index
    rw [blk_of_add hd1 hjb, blk_of_add hd2 hioi, Nat.add_sub_cancel_left,
      Nat.add_sub_cancel_left]
  · rintro ⟨b, i, hb, hi, hp, hv⟩
    refine ⟨(b / bbm * bbm, i / icbm * icbm), ?_, ?_⟩
    · exact (mem_tilePairs hbbm hicbm).mpr
        ⟨⟨dvd_mul_left _ _, lt_of_le_of_lt (Nat.div_mul_le_self b bbm) hb⟩,
         ⟨dvd_mul_left _ _, lt_of_le_of_lt (Nat.div_mul_le_self i icbm) hi⟩⟩
    · apply (pack_input_writes_mem_j batch_subblock_max_pos).mpr
      have hjlt : b - b / bbm * bbm < min (batch - b / bbm * bbm) bbm := by
        have h1 := Nat.div_add_mod b bbm
        have h2 := Nat.mod_lt b hbbm
        have h3 : bbm * (b / bbm) = b / bbm * bbm := Nat.mul_comm _ _
        have h4 := Nat.div_mul_le_self b bbm
        omega
      have hilt : i - i / icbm * icbm < min (ic - i / icbm * icbm) icbm := by
        have h1 := Nat.div_add_mod i icbm
        have h2 := Nat.mod_lt i hicbm
        have h3 : icbm * (i / icbm) = i / icbm * icbm := Nat.mul_comm _ _
        have h4 := Nat.div_mul_le_self i icbm
        omega
      refine ⟨b - b / bbm * bbm, i - i / icbm * icbm, hjlt, hilt, hp, ?_⟩
      have hb2 : b / bbm * bbm + (b - b / bbm * bbm) = b := by
        have h4 := Nat.div_mul_le_self b bbm
        omega
      have hi2 : i / icbm * icbm + (i - i / icbm * icbm) = i := by
        have h4 := Nat.div_mul_le_self i icbm
        omega
      rw [hb2, hi2]
      exact hv

/-- C10: with the fixed `batch_subblock_max = 4` and any positive
`batch_block_max` that is a multiple of it, every packed index stored by
the input packing stage across all tiles of the 2D grid over
`(batch_size, input_channels)` with tile sizes
`(batch_block_max, input_channels_block_max)` is strictly less than
`round_up(batch_size, batch_subblock_max) * input_channels` — the element
count of the packed-input scratch region — so all packed-input stores stay
inside the allocated packed-input buffer. -/
theorem fc_input_packing_writes_in_bounds (input : Nat → ℚ)
    (batch_size input_channels batch_block_max input_channels_block_max : Nat)
    (hb : 1 ≤ batch_size) (hic : 1 ≤ input_channels)
    (hbbm : 0 < batch_block_max) (hbbm4 : batch_subblock_max ∣ batch_block_max)
    (hicbm : 1 ≤ input_channels_block_max) :
    ∀ pv ∈ fc_input_packing_writes input batch_size input_channels batch_block_max
        input_channels_block_max,
      pv.1 < round_up batch_size batch_subblock_max * input_channels := by
  rintro ⟨p, v⟩ hm
  obtain ⟨b, i, hb', hi', hp, -⟩ := (fc_input_packing_writes_mem hbbm hicbm).mp hm
  rw [hp]
  exact fc_packed_input_index_lt hbbm hicbm hbbm4 hb' hi'

/-- C10 witness: the in-bounds property applied to a concrete store of the
grid over `(batch_size, input_channels) = (5, 3)` with tile sizes `(4, 2)`:
the store at packed position 3 (input element `(3, 0)`, value 9) lies
below `round_up(5, 4) * 3 = 24`. -/
theorem fc_input_packing_writes_in_bounds_witness :
    (1 : Nat) ≤ 5 ∧ (1 : Nat) ≤ 3 ∧ (0 : Nat) < 4 ∧ batch_subblock_max ∣ 4 ∧ (1 : Nat) ≤ 2 ∧
      ((3 : Nat), (9 : ℚ)) ∈ fc_input_packing_writes (fun n => (n : ℚ)) 5 3 4 2 ∧
      (3 : Nat) < round_up 5 batch_subblock_max * 3 :=
  ⟨by decide, by decide, by decide, by decide, by decide, by decide,
    fc_input_packing_writes_in_bounds (fun n => (n : ℚ)) 5 3 4 2
      (by decide) (by decide) (by decide) (by decide) (by decide)
      (3, (9 : ℚ)) (by decide)⟩

/-! ### Characterization of the packed kernel layout -/

theorem pack_kernel_writes_mem_j {matrix : Nat → ℚ}
    {ic icbs icbsz obs obsz p : Nat} {v : ℚ} :
    (p, v) ∈ pack_kernel_matrix_writes
        { matrix := matrix, input_channels := ic,
          outer_subblock_max := output_channels_subblock_max,
          input_channels_block_start := icbs, input_channels_block_size := icbsz }
        obs obsz ↔
      ∃ j l, j < obsz ∧ l < icbsz ∧
        p = packed_tile_index icbsz output_channels_subblock_max obs 0 obsz icbsz j l ∧
        v = matrix ((obs + j) * ic + (icbs + l)) := by
  rw [pack_kernel_writes_eq_input,
    pack_input_writes_mem_j output_channels_subblock_max_pos]
  constructor
  · rintro ⟨j, l, hj, hl, hp, hv⟩
    refine ⟨j, l, hj, hl, hp, ?_⟩
    rw [hv]
    show kernel_block_view matrix ic icbs icbsz ((obs + j) * icbsz + (0 + l)) = _
    unfold kernel_block_view
    have hicbsz : 0 < icbsz := by omega
    have h1 : ((obs + j) * icbsz + (0 + l)) / icbsz = obs + j := by
      rw [Nat.zero_add, Nat.mul_comm, Nat.mul_add_div hicbsz, Nat.div_eq_of_lt hl,
        Nat.add_zero]
    have h2 : ((obs + j) * icbsz + (0 + l)) % icbsz = l := by
      rw [Nat.zero_add, Nat.mul_comm, Nat.mul_add_mod, Nat.mod_eq_of_lt hl]
    rw [h1, h2]
  · rintro ⟨j, l, hj, hl, hp, hv⟩
    refine ⟨j, l, hj, hl, hp, ?_⟩
    rw [hv]
    show _ = kernel_block_view matrix ic icbs icbsz ((obs + j) * icbsz + (0 + l))
    unfold kernel_block_view
    have hicbsz : 0 < icbsz := by omega
    have h1 : ((obs + j) * icbsz + (0 + l)) / icbsz = obs + j := by
      rw [Nat.zero_add, Nat.mul_comm, Nat.mul_add_div hicbsz, Nat.div_eq_of_lt hl,
        Nat.add_zero]
    have h2 : ((obs + j) * icbsz + (0 + l)) % icbsz = l := by
      rw [Nat.zero_add, Nat.mul_comm, Nat.mul_add_mod, Nat.mod_eq_of_lt hl]
    rw [h1, h2]

theorem kernel_tile_to_global {icbsz obs obsz j l : Nat}
    (hdvd : output_channels_subblock_max ∣ obs) :
    packed_tile_index icbsz output_channels_subblock_max obs 0 obsz icbsz j l =
      fc_packed_kernel_index icbsz (obs + j) l := by
  obtain ⟨m, rfl⟩ := hdvd
  unfold packed_tile_index fc_packed_kernel_index
  have hdiv : (output_channels_subblock_max * m + j) / output_channels_subblock_max =
      m + j / output_channels_subblock_max :=
    Nat.mul_add_div output_channels_subblock_max_pos _ _
  have hmod : (output_channels_subblock_max * m + j) % output_channels_subblock_max =
      j % output_channels_subblock_max := Nat.mul_add_mod _ _ _
  rw [hdiv, hmod]
  ring

theorem fc_kernel_packing_writes_mem {kernel : Nat → ℚ}
    {ic icbs icbsz oc ocbm p : Nat} {v : ℚ}
    (hocbm : 0 < ocbm) (hocbm24 : output_channels_subblock_max ∣ ocbm) :
    (p, v) ∈ fc_kernel_packing_writes kernel ic icbs icbsz oc ocbm ↔
      ∃ o l, o < oc ∧ l < icbsz ∧ p = fc_packed_kernel_index icbsz o l ∧
        v = kernel (o * ic + (icbs + l)) := by
  unfold fc_kernel_packing_writes
  rw [List.mem_flatMap]
  constructor
  · rintro ⟨obs, hobs, hm⟩
    obtain ⟨hdvd, hlt⟩ := (mem_tileStarts hocbm).mp hobs
    obtain ⟨j, l, hj, hl, hp, hv⟩ := pack_kernel_writes_mem_j.mp hm
    have hjo2 : j < oc - obs := lt_of_lt_of_le hj (min_le_left _ _)
    refine ⟨obs + j, l, by omega, hl, ?_, hv⟩
    rw [hp, kernel_tile_to_global (dvd_trans hocbm24 hdvd)]
  · rintro ⟨o, l, ho, hl, hp, hv⟩
    have hole : o / ocbm * ocbm ≤ o := Nat.div_mul_le_self o ocbm
    refine ⟨o / ocbm * ocbm,
      (mem_tileStarts hocbm).mpr ⟨dvd_mul_left _ _, lt_of_le_of_lt hole ho⟩, ?_⟩
    apply pack_kernel_writes_mem_j.mpr
    have hjlt : o - o / ocbm * ocbm < min (oc - o / ocbm * ocbm) ocbm := by
      have h1 := Nat.div_add_mod o ocbm
      have h2 := Nat.mod_lt o hocbm
      have h3 : ocbm * (o / ocbm) = o / ocbm * ocbm := Nat.mul_comm _ _
      omega
    refine ⟨o - o / ocbm * ocbm, l, hjlt, hl, ?_, ?_⟩
    · rw [hp, kernel_tile_to_global
        (dvd_trans hocbm24 (dvd_mul_left ocbm (o / ocbm)))]
      have ho2 : o / ocbm * ocbm + (o - o / ocbm * ocbm) = o := by omega
      rw [ho2]
    · have ho2 : o / ocbm * ocbm + (o - o / ocbm * ocbm) = o := by omega
      rw [ho2]
      exact hv

theorem fc_packed_kernel_index_inj {icbsz o o' l l' : Nat}
    (hl : l < icbsz) (hl' : l' < icbsz)
    (h : fc_packed_kernel_index icbsz o l = fc_packed_kernel_index icbsz o' l') :
    o = o' ∧ l = l' := by
  unfold fc_packed_kernel_index at h
  have hassoc : ∀ x : Nat,
      x / output_channels_subblock_max * output_channels_subblock_max * icbsz =
        x / output_channels_subblock_max * (output_channels_subblock_max * icbsz) := by
    intro x; ring
  rw [hassoc o, hassoc o'] at h
  have hos : (0 : Nat) < output_channels_subblock_max := output_channels_subblock_max_pos
  have hr : l * output_channels_subblock_max + o % output_channels_subblock_max <
      output_channels_subblock_max * icbsz := by
    have := mul_add_lt hl (Nat.mod_lt o hos)
    have hc : icbsz * output_channels_subblock_max =
        output_channels_subblock_max * icbsz := Nat.mul_comm _ _
    omega
  have hr' : l' * output_channels_subblock_max + o' % output_channels_subblock_max <
      output_channels_subblock_max * icbsz := by
    have := mul_add_lt hl' (Nat.mod_lt o' hos)
    have hc : icbsz * output_channels_subblock_max =
        output_channels_subblock_max * icbsz := Nat.mul_comm _ _
    omega
  have h2 : o / output_channels_subblock_max *
        (output_channels_subblock_max * icbsz) +
      (l * output_channels_subblock_max + o % output_channels_subblock_max) =
      o' / output_channels_subblock_max * (output_channels_subblock_max * icbsz) +
      (l' * output_channels_subblock_max + o' % output_channels_subblock_max) := by
    omega
  obtain ⟨hdo, hrest⟩ := mixed_radix_inj hr hr' h2
  obtain ⟨hll, hmm⟩ := mixed_radix_inj (Nat.mod_lt o hos) (Nat.mod_lt o' hos) hrest
  have e1 := Nat.div_add_mod o output_channels_subblock_max
  have e2 := Nat.div_add_mod o' output_channels_subblock_max
  have e5 : output_channels_subblock_max * (o / output_channels_subblock_max) =
      output_channels_subblock_max * (o' / output_channels_subblock_max) := by rw [hdo]
  exact ⟨by omega, hll⟩

/-! ### The multiplication stage as a list of accumulation events -/

theorem nnp_sgemm_events_mem {mr nr simd k : Nat} {a b : Nat → ℚ} {mask : Nat → Bool}
    {cBase rs : Nat} {q : Nat} {v : ℚ} :
    (q, v) ∈ nnp_sgemm_events mr nr simd k a b mask cBase rs ↔
      ∃ bb oo, bb < mr ∧ oo < nr ∧ sgemm_col_enabled nr simd mask oo = true ∧
        q = cBase + bb * rs + oo ∧
        v = ∑ l ∈ Finset.range k,
          a (l * batch_subblock_max + bb) * b (l * output_channels_subblock_max + oo) := by
  unfold nnp_sgemm_events
  simp only [List.mem_flatMap, List.mem_map, List.mem_filter, List.mem_range, Prod.mk.injEq]
  constructor
  · rintro ⟨bb, hbb, oo, ⟨hoo, hen⟩, hq, hv⟩
    exact ⟨bb, oo, hbb, hoo, hen, hq.symm, hv.symm⟩
  · rintro ⟨bb, oo, hbb, hoo, hen, hq, hv⟩
    exact ⟨bb, hbb, oo, ⟨hoo, hen⟩, hq.symm, hv.symm⟩

theorem q_decomp {row col oc : Nat} (hcol : col < oc) :
    (row * oc + col) / oc = row ∧ (row * oc + col) % oc = col := by
  have hoc : 0 < oc := by omega
  constructor
  · rw [Nat.mul_comm, Nat.mul_add_div hoc, Nat.div_eq_of_lt hcol, Nat.add_zero]
  · rw [Nat.mul_comm, Nat.mul_add_mod, Nat.mod_eq_of_lt hcol]

theorem nodup_flatMap_fst {β : Type} (l : List β) (f : β → List (Nat × ℚ)) (key : Nat → β)
    (hl : l.Nodup) (hf : ∀ x ∈ l, ((f x).map Prod.fst).Nodup)
    (hkey : ∀ x ∈ l, ∀ e ∈ f x, key e.1 = x) :
    ((l.flatMap f).map Prod.fst).Nodup := by
  induction l with
  | nil => simp
  | cons x l ih =>
    rw [List.flatMap_cons, List.map_append]
    rw [List.nodup_cons] at hl
    apply List.Nodup.append
    · exact hf x (List.mem_cons_self x l)
    · exact ih hl.2 (fun y hy => hf y (List.mem_cons_of_mem _ hy))
        (fun y hy => hkey y (List.mem_cons_of_mem _ hy))
    · intro a ha1 ha2
      obtain ⟨e, he, rfl⟩ := List.mem_map.mp ha1
      obtain ⟨e', he', hfst⟩ := List.mem_map.mp ha2
      obtain ⟨y, hy, he'2⟩ := List.mem_flatMap.mp he'
      have k1 : key e.1 = x := hkey x (List.mem_cons_self x l) e he
      have k2 : key e'.1 = y := hkey y (List.mem_cons_of_mem _ hy) e' he'2
      rw [hfst, k1] at k2
      exact hl.1 (k2 ▸ hy)

theorem nnp_sgemm_events_fst_nodup {mr nr simd k : Nat} {a b : Nat → ℚ} {mask : Nat → Bool}
    {cBase rs : Nat}
    (hrs : ∀ oo, oo < nr → sgemm_col_enabled nr simd mask oo = true → oo < rs) :
    ((nnp_sgemm_events mr nr simd k a b mask cBase rs).map Prod.fst).Nodup := by
  unfold nnp_sgemm_events
  apply nodup_flatMap_fst _ _ (fun q => (q - cBase) / rs)
  · exact List.nodup_range mr
  · intro bb hbb
    rw [List.map_map]
    apply List.Nodup.map
    · intro x y hxy
      simpa using hxy
    · exact (List.nodup_range nr).filter _
  · intro bb hbb e he
    obtain ⟨oo, hoo, rfl⟩ := List.mem_map.mp he
    rw [List.mem_filter, List.mem_range] at hoo
    have hoors : oo < rs := hrs oo hoo.1 hoo.2
    show (cBase + bb * rs + oo - cBase) / rs = bb
    have h1 : cBase + bb * rs + oo - cBase = bb * rs + oo := by omega
    rw [h1]
    exact (q_decomp hoors).1

theorem foldl_accum_state {β : Type} (upd : Nat) (l : List β) (E : β → List (Nat × ℚ))
    (st : mm_state) :
    l.foldl (fun st x =>
      ({ out := applyAccum upd (E x) st.out,
         owrites := st.owrites ++ (E x).map Prod.fst } : mm_state)) st =
    { out := applyAccum upd (l.flatMap E) st.out,
      owrites := st.owrites ++ (l.flatMap E).map Prod.fst } := by
  induction l generalizing st with
  | nil =>
    show st = ({ out := st.out, owrites := st.owrites ++ [] } : mm_state)
    rw [List.append_nil]
  | cons x l ih =>
    rw [List.foldl_cons, ih, List.flatMap_cons, applyAccum_append, List.map_append,
      List.append_assoc]

/-- The accumulation events of one multiplication tile (the
`compute_matrix_multiplication` call on tile `(output-channel block, batch
subblock)`), flattened over its output-channel subblocks. -/
def compute_matrix_multiplication_events (context : matrix_multiplication_context)
    (output_channels_block_start batch_subblock_start
     output_channels_block_size batch_subblock_size : Nat) : List (Nat × ℚ) :=
  let batch_block_stride := round_up context.batch_block_size context.batch_subblock_max
  (tileStarts output_channels_block_size context.output_channels_subblock_max).flatMap
    fun output_channels_subblock_start =>
      let output_channels_subblock_size :=
        min (output_channels_block_size - output_channels_subblock_start)
          context.output_channels_subblock_max
      nnp_sgemm_events (sgemm_row batch_subblock_size + 1)
        ((sgemm_col output_channels_subblock_size context.simd_width + 1) * context.simd_width)
        context.simd_width context.input_channels_block_size
        (fun j => context.input (context.batch_block_start * context.input_channels +
          context.input_channels_block_start * batch_block_stride +
          batch_subblock_start * context.input_channels_block_size + j))
        (fun j => context.kernel
          ((output_channels_block_start + output_channels_subblock_start) *
            context.input_channels_block_size + j))
        (fun j => context.column_mask
          (mask_shift output_channels_subblock_size context.simd_width + j))
        ((context.batch_block_start + batch_subblock_start) * context.output_channels +
          (output_channels_block_start + output_channels_subblock_start))
        context.output_channels

theorem compute_matrix_multiplication_eq (context : matrix_multiplication_context)
    (st : mm_state) (ocbs bss obsz bssz : Nat) :
    compute_matrix_multiplication context st ocbs bss obsz bssz =
      { out := applyAccum context.input_channels_block_start
          (compute_matrix_multiplication_events context ocbs bss obsz bssz) st.out,
        owrites := st.owrites ++
          (compute_matrix_multiplication_events context ocbs bss obsz bssz).map Prod.fst } := by
  unfold compute_matrix_multiplication compute_matrix_multiplication_events
  exact foldl_accum_state _ _ _ st

/-- The accumulation events of one `(output_channels, batch_block_size)`
2D-tiled multiplication pass for one batch block. -/
def fc_mult_block_events (context : matrix_multiplication_context)
    (output_channels output_channels_block_max : Nat) : List (Nat × ℚ) :=
  (tilePairs output_channels context.batch_block_size output_channels_block_max
      context.batch_subblock_max).flatMap fun ab =>
    compute_matrix_multiplication_events context ab.1 ab.2
      (min (output_channels - ab.1) output_channels_block_max)
      (min (context.batch_block_size - ab.2) context.batch_subblock_max)

theorem fc_mult_block_eq (context : matrix_multiplication_context) (mm : mm_state)
    (output_channels output_channels_block_max : Nat) :
    pthreadpool_compute_2d_tiled (compute_matrix_multiplication context) mm
        output_channels context.batch_block_size output_channels_block_max
        context.batch_subblock_max =
      { out := applyAccum context.input_channels_block_start
          (fc_mult_block_events context output_channels output_channels_block_max) mm.out,
        owrites := mm.owrites ++
          (fc_mult_block_events context output_channels output_channels_block_max).map
            Prod.fst } := by
  unfold pthreadpool_compute_2d_tiled fc_mult_block_events
  have hstep : (fun (s : mm_state) (ab : Nat × Nat) =>
      compute_matrix_multiplication context s ab.1 ab.2
        (min (output_channels - ab.1) output_channels_block_max)
        (min (context.batch_block_size - ab.2) context.batch_subblock_max)) =
      fun (s : mm_state) (ab : Nat × Nat) =>
        ({ out := applyAccum context.input_channels_block_start
            (compute_matrix_multiplication_events context ab.1 ab.2
              (min (output_channels - ab.1) output_channels_block_max)
              (min (context.batch_block_size - ab.2) context.batch_subblock_max)) s.out,
           owrites := s.owrites ++
            (compute_matrix_multiplication_events context ab.1 ab.2
              (min (output_channels - ab.1) output_channels_block_max)
              (min (context.batch_block_size - ab.2) context.batch_subblock_max)).map
              Prod.fst } : mm_state) := by
    funext s ab
    exact compute_matrix_multiplication_eq context s ab.1 ab.2 _ _
  rw [hstep]
  exact foldl_accum_state _ _ _ mm

/-- The accumulation events of one whole multiplication pass (one
input-channel block of `fc_input_channels_block_step`): all batch blocks in
order, reading the scratch buffer `scratch2` as it stands after this
block's kernel packing. -/
def fc_mult_phase_events (scratch2 : Nat → ℚ)
    (simd_width batch_size batch_block_max input_channels output_channels
     output_channels_block_max input_channels_block_start input_channels_block_size
     packed_input_off packed_kernel_off : Nat) : List (Nat × ℚ) :=
  (tileStarts batch_size batch_block_max).flatMap fun batch_block_start =>
    fc_mult_block_events
      { input := fun j => scratch2 (packed_input_off + j),
        kernel := fun j => scratch2 (packed_kernel_off + j),
        input_channels := input_channels, output_channels := output_channels,
        batch_block_start := batch_block_start,
        batch_block_size := min (batch_size - batch_block_start) batch_block_max,
        input_channels_block_start := input_channels_block_start,
        input_channels_block_size := input_channels_block_size,
        output_channels_subblock_max := output_channels_subblock_max,
        batch_subblock_max := batch_subblock_max,
        simd_width := simd_width, column_mask := column_mask_bit }
      output_channels output_channels_block_max

theorem fc_input_channels_block_step_eq
    (simd batch bbm ic icbm oc ocbm : Nat) (kernel : Nat → ℚ) (piOff pkOff : Nat)
    (st : fc_state) (icbs : Nat) :
    fc_input_channels_block_step simd batch bbm batch_subblock_max ic icbm oc ocbm
        output_channels_subblock_max kernel piOff pkOff st icbs =
      { scratch := applyWrites (shiftWrites pkOff
          (fc_kernel_packing_writes kernel ic icbs (min (ic - icbs) icbm) oc ocbm)) st.scratch,
        out := applyAccum icbs
          (fc_mult_phase_events
            (applyWrites (shiftWrites pkOff
              (fc_kernel_packing_writes kernel ic icbs (min (ic - icbs) icbm) oc ocbm))
              st.scratch)
            simd batch bbm ic oc ocbm icbs (min (ic - icbs) icbm) piOff pkOff) st.out,
        owrites := st.owrites ++
          (fc_mult_phase_events
            (applyWrites (shiftWrites pkOff
              (fc_kernel_packing_writes kernel ic icbs (min (ic - icbs) icbm) oc ocbm))
              st.scratch)
            simd batch bbm ic oc ocbm icbs (min (ic - icbs) icbm) piOff pkOff).map
            Prod.fst } := by
  show ({ scratch := pthreadpool_compute_1d_tiled
            (fun buf outer_block_start outer_block_size =>
              applyWrites
                (shiftWrites pkOff
                  (pack_kernel_matrix_writes
                    { matrix := kernel, input_channels := ic,
                      outer_subblock_max := output_channels_subblock_max,
                      input_channels_block_start := icbs,
                      input_channels_block_size := min (ic - icbs) icbm }
                    outer_block_start outer_block_size)) buf)
            st.scratch oc ocbm,
          out := ((tileStarts batch bbm).foldl
            (fun (mm : mm_state) (batch_block_start : Nat) =>
              pthreadpool_compute_2d_tiled
                (compute_matrix_multiplication
                  { input := fun j => pthreadpool_compute_1d_tiled
                      (fun buf outer_block_start outer_block_size =>
                        applyWrites
                          (shiftWrites pkOff
                            (pack_kernel_matrix_writes
                              { matrix := kernel, input_channels := ic,
                                outer_subblock_max := output_channels_subblock_max,
                                input_channels_block_start := icbs,
                                input_channels_block_size := min (ic - icbs) icbm }
                              outer_block_start outer_block_size)) buf)
                      st.scratch oc ocbm (piOff + j),
                    kernel := fun j => pthreadpool_compute_1d_tiled
                      (fun buf outer_block_start outer_block_size =>
                        applyWrites
                          (shiftWrites pkOff
                            (pack_kernel_matrix_writes
                              { matrix := kernel, input_channels := ic,
                                outer_subblock_max := output_channels_subblock_max,
                                input_channels_block_start := icbs,
                                input_channels_block_size := min (ic - icbs) icbm }
                              outer_block_start outer_block_size)) buf)
                      st.scratch oc ocbm (pkOff + j),
                    input_channels := ic, output_channels := oc,
                    batch_block_start := batch_block_start,
                    batch_block_size := min (batch - batch_block_start) bbm,
                    input_channels_block_start := icbs,
                    input_channels_block_size := min (ic - icbs) icbm,
                    output_channels_subblock_max := output_channels_subblock_max,
                    batch_subblock_max := batch_subblock_max,
                    simd_width := simd, column_mask := column_mask_bit })
                mm oc (min (batch - batch_block_start) bbm) ocbm batch_subblock_max)
            { out := st.out, owrites := st.owrites }).out,
          owrites := ((tileStarts batch bbm).foldl
            (fun (mm : mm_state) (batch_block_start : Nat) =>
              pthreadpool_compute_2d_tiled
                (compute_matrix_multiplication
                  { input := fun j => pthreadpool_compute_1d_tiled
                      (fun buf outer_block_start outer_block_size =>
                        applyWrites
                          (shiftWrites pkOff
                            (pack_kernel_matrix_writes
                              { matrix := kernel, input_channels := ic,
                                outer_subblock_max := output_channels_subblock_max,
                                input_channels_block_start := icbs,
                                input_channels_block_size := min (ic - icbs) icbm }
                              outer_block_start outer_block_size)) buf)
                      st.scratch oc ocbm (piOff + j),
                    kernel := fun j => pthreadpool_compute_1d_tiled
                      (fun buf outer_block_start outer_block_size =>
                        applyWrites
                          (shiftWrites pkOff
                            (pack_kernel_matrix_writes
                              { matrix := kernel, input_channels := ic,
                                outer_subblock_max := output_channels_subblock_max,
                                input_channels_block_start := icbs,
                                input_channels_block_size := min (ic - icbs) icbm }
                              outer_block_start outer_block_size)) buf)
                      st.scratch oc ocbm (pkOff + j),
                    input_channels := ic, output_channels := oc,
                    batch_block_start := batch_block_start,
                    batch_block_size := min (batch - batch_block_start) bbm,
                    input_channels_block_start := icbs,
                    input_channels_block_size := min (ic - icbs) icbm,
                    output_channels_subblock_max := output_channels_subblock_max,
                    batch_subblock_max := batch_subblock_max,
                    simd_width := simd, column_mask := column_mask_bit })
                mm oc (min (batch - batch_block_start) bbm) ocbm batch_subblock_max)
            { out := st.out, owrites := st.owrites }).owrites } : fc_state) = _
  rw [fc_kernel_stage_eq]
  have hmult : (tileStarts batch bbm).foldl
      (fun (mm : mm_state) (batch_block_start : Nat) =>
        pthreadpool_compute_2d_tiled
          (compute_matrix_multiplication
            { input := fun j => applyWrites (shiftWrites pkOff
                (fc_kernel_packing_writes kernel ic icbs (min (ic - icbs) icbm) oc ocbm))
                st.scratch (piOff + j),
              kernel := fun j => applyWrites (shiftWrites pkOff
                (fc_kernel_packing_writes kernel ic icbs (min (ic - icbs) icbm) oc ocbm))
                st.scratch (pkOff + j),
              input_channels := ic, output_channels := oc,
              batch_block_start := batch_block_start,
              batch_block_size := min (batch - batch_block_start) bbm,
              input_channels_block_start := icbs,
              input_channels_block_size := min (ic - icbs) icbm,
              output_channels_subblock_max := output_channels_subblock_max,
              batch_subblock_max := batch_subblock_max,
              simd_width := simd, column_mask := column_mask_bit })
          mm oc (min (batch - batch_block_start) bbm) ocbm batch_subblock_max)
      { out := st.out, owrites := st.owrites } =
      { out := applyAccum icbs
          (fc_mult_phase_events
            (applyWrites (shiftWrites pkOff
              (fc_kernel_packing_writes kernel ic icbs (min (ic - icbs) icbm) oc ocbm))
              st.scratch)
            simd batch bbm ic oc ocbm icbs (min (ic - icbs) icbm) piOff pkOff) st.out,
        owrites := st.owrites ++
          (fc_mult_phase_events
            (applyWrites (shiftWrites pkOff
              (fc_kernel_packing_writes kernel ic icbs (min (ic - icbs) icbm) oc ocbm))
              st.scratch)
            simd batch bbm ic oc ocbm icbs (min (ic - icbs) icbm) piOff pkOff).map
            Prod.fst } := by
    refine (List.foldl_ext _
      (fun (mm : mm_state) (batch_block_start : Nat) =>
        ({ out := applyAccum icbs
            (fc_mult_block_events
              { input := fun j => applyWrites (shiftWrites pkOff
                  (fc_kernel_packing_writes kernel ic icbs (min (ic - icbs) icbm) oc ocbm))
                  st.scratch (piOff + j),
                kernel := fun j => applyWrites (shiftWrites pkOff
                  (fc_kernel_packing_writes kernel ic icbs (min (ic - icbs) icbm) oc ocbm))
                  st.scratch (pkOff + j),
                input_channels := ic, output_channels := oc,
                batch_block_start := batch_block_start,
                batch_block_size := min (batch - batch_block_start) bbm,
                input_channels_block_start := icbs,
                input_channels_block_size := min (ic - icbs) icbm,
                output_channels_subblock_max := output_channels_subblock_max,
                batch_subblock_max := batch_subblock_max,
                simd_width := simd, column_mask := column_mask_bit }
              oc ocbm) mm.out,
           owrites := mm.owrites ++
            (fc_mult_block_events
              { input := fun j => applyWrites (shiftWrites pkOff
                  (fc_kernel_packing_writes kernel ic icbs (min (ic - icbs) icbm) oc ocbm))
                  st.scratch (piOff + j),
                kernel := fun j => applyWrites (shiftWrites pkOff
                  (fc_kernel_packing_writes kernel ic icbs (min (ic - icbs) icbm) oc ocbm))
                  st.scratch (pkOff + j),
                input_channels := ic, output_channels := oc,
                batch_block_start := batch_block_start,
                batch_block_size := min (batch - batch_block_start) bbm,
                input_channels_block_start := icbs,
                input_channels_block_size := min (ic - icbs) icbm,
                output_channels_subblock_max := output_channels_subblock_max,
                batch_subblock_max := batch_subblock_max,
                simd_width := simd, column_mask := column_mask_bit }
              oc ocbm).map Prod.fst } : mm_state))
      _ ?_).trans (foldl_accum_state icbs _ _ _)
    intro mm batch_block_start hmem
    exact fc_mult_block_eq _ mm oc ocbm
  rw [hmult]

theorem fc_a_read_index {batch ic bbm icbm icbs : Nat} {bbs bss bb l : Nat}
    (hbbs_dvd : bbm ∣ bbs) (hbss_dvd : batch_subblock_max ∣ bss)
    (hbb4 : bb < batch_subblock_max) (hbssbb : bss + bb < min (batch - bbs) bbm)
    (hicbs_dvd : icbm ∣ icbs) (hl : l < min (ic - icbs) icbm) :
    bbs * ic + icbs * round_up (min (batch - bbs) bbm) batch_subblock_max +
        bss * min (ic - icbs) icbm + (l * batch_subblock_max + bb) =
      fc_packed_input_index batch ic bbm icbm (bbs + bss + bb) (icbs + l) := by
  unfold fc_packed_input_index
  have hbbm_le : bss + bb < bbm := lt_of_lt_of_le hbssbb (min_le_right _ _)
  have hassoc : bbs + bss + bb = bbs + (bss + bb) := Nat.add_assoc _ _ _
  rw [hassoc, blk_of_add hbbs_dvd hbbm_le, Nat.add_sub_cancel_left,
    blk_of_add hicbs_dvd (lt_of_lt_of_le hl (min_le_right _ _)), Nat.add_sub_cancel_left]
  unfold packed_tile_index
  rw [blk_of_add hbss_dvd hbb4, off_of_add hbss_dvd hbb4]
  ring

theorem fc_b_read_index {icbsz ocbs ocs oo l : Nat}
    (hdvd : output_channels_subblock_max ∣ ocbs + ocs)
    (hoo : oo < output_channels_subblock_max) :
    (ocbs + ocs) * icbsz + (l * output_channels_subblock_max + oo) =
      fc_packed_kernel_index icbsz (ocbs + ocs + oo) l := by
  unfold fc_packed_kernel_index
  rw [blk_of_add hdvd hoo, off_of_add hdvd hoo]
  ring

theorem sgemm_row_succ {m : Nat} (h : 1 ≤ m) : sgemm_row m + 1 = m := by
  unfold sgemm_row
  omega

theorem le_sgemm_width {n : Nat} (h1 : 1 ≤ n) (h2 : n ≤ 24) :
    n ≤ (sgemm_col n 8 + 1) * 8 := by
  rw [sgemm_col_width h1 h2]
  exact le_round_up n (by decide)

theorem fc_mult_phase_events_mem {scratch2 input kernel : Nat → ℚ}
    {batch ic oc bbm icbm ocbm icbs piOff pkOff : Nat} {q : Nat} {v : ℚ}
    (hbbm : 0 < bbm) (hbbm4 : batch_subblock_max ∣ bbm)
    (hicbm : 0 < icbm)
    (hocbm : 0 < ocbm) (hocbm24 : output_channels_subblock_max ∣ ocbm)
    (hicbs_dvd : icbm ∣ icbs) (hicbs_lt : icbs < ic)
    (HIN : ∀ b i, b < batch → i < ic →
      scratch2 (piOff + fc_packed_input_index batch ic bbm icbm b i) = input (b * ic + i))
    (HK : ∀ o l, o < oc → l < min (ic - icbs) icbm →
      scratch2 (pkOff + fc_packed_kernel_index (min (ic - icbs) icbm) o l) =
        kernel (o * ic + (icbs + l))) :
    (q, v) ∈ fc_mult_phase_events scratch2 8 batch bbm ic oc ocbm icbs
        (min (ic - icbs) icbm) piOff pkOff ↔
      ∃ b o, b < batch ∧ o < oc ∧ q = b * oc + o ∧
        v = ∑ l ∈ Finset.range (min (ic - icbs) icbm),
          input (b * ic + (icbs + l)) * kernel (o * ic + (icbs + l)) := by
  have h4 : (0 : Nat) < batch_subblock_max := by decide
  have h24 : (0 : Nat) < output_channels_subblock_max := by decide
  simp only [fc_mult_phase_events, fc_mult_block_events,
    compute_matrix_multiplication_events, List.mem_flatMap]
  constructor
  · rintro ⟨bbs, hbbs, ab, hab, ocs, hocs, hev⟩
    obtain ⟨bb, oo, hbb, hoo, hen, hq, hv⟩ := nnp_sgemm_events_mem.mp hev
    obtain ⟨hbbs_dvd, hbbs_lt⟩ := (mem_tileStarts hbbm).mp hbbs
    obtain ⟨⟨hocbs_dvd, hocbs_lt⟩, hbss_dvd, hbss_lt⟩ := (mem_tilePairs hocbm h4).mp hab
    obtain ⟨hocs_dvd, hocs_lt⟩ := (mem_tileStarts h24).mp hocs
    have hbssz1 : 1 ≤ min (min (batch - bbs) bbm - ab.2) batch_subblock_max := by omega
    rw [sgemm_row_succ hbssz1] at hbb
    have hn1 : 1 ≤ min (min (oc - ab.1) ocbm - ocs) output_channels_subblock_max := by omega
    have hn24 : min (min (oc - ab.1) ocbm - ocs) output_channels_subblock_max ≤ 24 := by
      have := min_le_right (min (oc - ab.1) ocbm - ocs) output_channels_subblock_max
      unfold output_channels_subblock_max at this ⊢
      omega
    have hoon : oo < min (min (oc - ab.1) ocbm - ocs) output_channels_subblock_max :=
      (mask_enabled_iff hn1 hn24 oo hoo).mp hen
    refine ⟨bbs + ab.2 + bb, ab.1 + ocs + oo, by omega, by omega, ?_, ?_⟩
    · rw [hq]
      ring
    · rw [hv]
      apply Finset.sum_congr rfl
      intro l hl
      rw [Finset.mem_range] at hl
      have hbbm_lt : ab.2 + bb < min (batch - bbs) bbm := by omega
      have ha := @fc_a_read_index batch ic bbm icbm icbs bbs ab.2 bb l hbbs_dvd hbss_dvd
        (by omega) hbbm_lt hicbs_dvd hl
      have hb := @fc_b_read_index (min (ic - icbs) icbm) ab.1 ocs oo l
        (dvd_add (dvd_trans hocbm24 hocbs_dvd) hocs_dvd) (by omega)
      rw [ha, hb, HIN (bbs + ab.2 + bb) (icbs + l) (by omega) (by omega),
        HK (ab.1 + ocs + oo) l (by omega) hl]
  · rintro ⟨b, o, hb, ho, hq, hv⟩
    have hb_split := Nat.div_add_mod b bbm
    have hb_mod := Nat.mod_lt b hbbm
    have hb_comm : bbm * (b / bbm) = b / bbm * bbm := Nat.mul_comm _ _
    have hb_le : b / bbm * bbm ≤ b := Nat.div_mul_le_self b bbm
    have hrb_split := Nat.div_add_mod (b % bbm) batch_subblock_max
    have hrb_mod := Nat.mod_lt (b % bbm) h4
    have hrb_comm : batch_subblock_max * (b % bbm / batch_subblock_max) =
        b % bbm / batch_subblock_max * batch_subblock_max := Nat.mul_comm _ _
    have hrb_le : b % bbm / batch_subblock_max * batch_subblock_max ≤ b % bbm :=
      Nat.div_mul_le_self _ _
    have ho_split := Nat.div_add_mod o ocbm
    have ho_mod := Nat.mod_lt o hocbm
    have ho_comm : ocbm * (o / ocbm) = o / ocbm * ocbm := Nat.mul_comm _ _
    have ho_le : o / ocbm * ocbm ≤ o := Nat.div_mul_le_self o ocbm
    have hro_split := Nat.div_add_mod (o % ocbm) output_channels_subblock_max
    have hro_mod := Nat.mod_lt (o % ocbm) h24
    have hro_comm : output_channels_subblock_max *
        (o % ocbm / output_channels_subblock_max) =
        o % ocbm / output_channels_subblock_max * output_channels_subblock_max :=
      Nat.mul_comm _ _
    have hro_le : o % ocbm / output_channels_subblock_max * output_channels_subblock_max ≤
        o % ocbm := Nat.div_mul_le_self _ _
    refine ⟨b / bbm * bbm, (mem_tileStarts hbbm).mpr ⟨dvd_mul_left _ _, by omega⟩,
      (o / ocbm * ocbm, b % bbm / batch_subblock_max * batch_subblock_max),
      (mem_tilePairs hocbm h4).mpr
        ⟨⟨dvd_mul_left _ _, by omega⟩, ⟨dvd_mul_left _ _, by omega⟩⟩,
      o % ocbm / output_channels_subblock_max * output_channels_subblock_max,
      (mem_tileStarts h24).mpr ⟨dvd_mul_left _ _, by omega⟩, ?_⟩
    apply nnp_sgemm_events_mem.mpr
    have hbssz1 : 1 ≤ min (min (batch - b / bbm * bbm) bbm -
        b % bbm / batch_subblock_max * batch_subblock_max) batch_subblock_max := by omega
    have hn1 : 1 ≤ min (min (oc - o / ocbm * ocbm) ocbm -
        o % ocbm / output_channels_subblock_max * output_channels_subblock_max)
        output_channels_subblock_max := by omega
    have hn24 : min (min (oc - o / ocbm * ocbm) ocbm -
        o % ocbm / output_channels_subblock_max * output_channels_subblock_max)
        output_channels_subblock_max ≤ 24 := by
      have := min_le_right (min (oc - o / ocbm * ocbm) ocbm -
        o % ocbm / output_channels_subblock_max * output_channels_subblock_max)
        output_channels_subblock_max
      unfold output_channels_subblock_max at this ⊢
      omega
    have hoon : o % ocbm % output_channels_subblock_max <
        min (min (oc - o / ocbm * ocbm) ocbm -
          o % ocbm / output_channels_subblock_max * output_channels_subblock_max)
        output_channels_subblock_max := by omega
    refine ⟨b % bbm % batch_subblock_max, o % ocbm % output_channels_subblock_max,
      ?_, ?_, ?_, ?_, ?_⟩
    · rw [sgemm_row_succ hbssz1]
      omega
    · exact lt_of_lt_of_le hoon (le_sgemm_width hn1 hn24)
    · exact (mask_enabled_iff hn1 hn24 _
        (lt_of_lt_of_le hoon (le_sgemm_width hn1 hn24))).mpr hoon
    · rw [hq]
      have hbeq : b = b / bbm * bbm + b % bbm / batch_subblock_max * batch_subblock_max +
          b % bbm % batch_subblock_max := by omega
      have hoeq : o = o / ocbm * ocbm +
          o % ocbm / output_channels_subblock_max * output_channels_subblock_max +
          o % ocbm % output_channels_subblock_max := by omega
      conv_lhs => rw [hbeq, hoeq]
      ring
    · rw [hv]
      apply Finset.sum_congr rfl
      intro l hl
      rw [Finset.mem_range] at hl
      have hbbm_lt : b % bbm / batch_subblock_max * batch_subblock_max +
          b % bbm % batch_subblock_max < min (batch - b / bbm * bbm) bbm := by omega
      have ha := @fc_a_read_index batch ic bbm icbm icbs (b / bbm * bbm)
        (b % bbm / batch_subblock_max * batch_subblock_max)
        (b % bbm % batch_subblock_max) l
        (dvd_mul_left bbm (b / bbm)) (dvd_mul_left _ _) (by omega) hbbm_lt hicbs_dvd hl
      have hb2 := @fc_b_read_index (min (ic - icbs) icbm) (o / ocbm * ocbm)
        (o % ocbm / output_channels_subblock_max * output_channels_subblock_max)
        (o % ocbm % output_channels_subblock_max) l
        (dvd_add (dvd_trans hocbm24 (dvd_mul_left ocbm (o / ocbm))) (dvd_mul_left _ _))
        (by omega)
      have hbeq : b / bbm * bbm + b % bbm / batch_subblock_max * batch_subblock_max +
          b % bbm % batch_subblock_max = b := by omega
      have hoeq : o / ocbm * ocbm +
          o % ocbm / output_channels_subblock_max * output_channels_subblock_max +
          o % ocbm % output_channels_subblock_max = o := by omega
      rw [hbeq] at ha
      rw [hoeq] at hb2
      rw [ha, hb2, HIN b (icbs + l) hb (by omega), HK o l ho hl]

theorem tilePairs_nodup (ri rj ti tj : Nat) (hti : 0 < ti) (htj : 0 < tj) :
    (tilePairs ri rj ti tj).Nodup :=
  (tileStarts_nodup ri ti hti).product (tileStarts_nodup rj tj htj)

theorem fc_sgemm_event_coords {batch oc bbm ocbm icbsz : Nat} {a b : Nat → ℚ}
    {bbs ocs : Nat} {ab : Nat × Nat} {e : Nat × ℚ}
    (hbbm : 0 < bbm) (hocbm : 0 < ocbm)
    (hbbs : bbs ∈ tileStarts batch bbm)
    (hab : ab ∈ tilePairs oc (min (batch - bbs) bbm) ocbm batch_subblock_max)
    (hocs : ocs ∈ tileStarts (min (oc - ab.1) ocbm) output_channels_subblock_max)
    (he : e ∈ nnp_sgemm_events
      (sgemm_row (min (min (batch - bbs) bbm - ab.2) batch_subblock_max) + 1)
      ((sgemm_col (min (min (oc - ab.1) ocbm - ocs) output_channels_subblock_max) 8 + 1) * 8)
      8 icbsz a b
      (fun j => column_mask_bit
        (mask_shift (min (min (oc - ab.1) ocbm - ocs) output_channels_subblock_max) 8 + j))
      ((bbs + ab.2) * oc + (ab.1 + ocs)) oc) :
    e.1 / oc / bbm * bbm = bbs ∧
    e.1 % oc / ocbm * ocbm = ab.1 ∧
    (e.1 / oc - bbs) / batch_subblock_max * batch_subblock_max = ab.2 ∧
    (e.1 % oc - ab.1) / output_channels_subblock_max * output_channels_subblock_max = ocs := by
  have h4 : (0 : Nat) < batch_subblock_max := by decide
  have h24 : (0 : Nat) < output_channels_subblock_max := by decide
  obtain ⟨q, v⟩ := e
  obtain ⟨bb, oo, hbb, hoo, hen, hq, hv⟩ := nnp_sgemm_events_mem.mp he
  obtain ⟨hbbs_dvd, hbbs_lt⟩ := (mem_tileStarts hbbm).mp hbbs
  obtain ⟨⟨hocbs_dvd, hocbs_lt⟩, hbss_dvd, hbss_lt⟩ := (mem_tilePairs hocbm h4).mp hab
  obtain ⟨hocs_dvd, hocs_lt⟩ := (mem_tileStarts h24).mp hocs
  have hbssz1 : 1 ≤ min (min (batch - bbs) bbm - ab.2) batch_subblock_max := by omega
  rw [sgemm_row_succ hbssz1] at hbb
  have hn1 : 1 ≤ min (min (oc - ab.1) ocbm - ocs) output_channels_subblock_max := by omega
  have hn24 : min (min (oc - ab.1) ocbm - ocs) output_channels_subblock_max ≤ 24 := by
    have := min_le_right (min (oc - ab.1) ocbm - ocs) output_channels_subblock_max
    unfold output_channels_subblock_max at this ⊢
    omega
  have hoon : oo < min (min (oc - ab.1) ocbm - ocs) output_channels_subblock_max :=
    (mask_enabled_iff hn1 hn24 oo hoo).mp hen
  have hq' : q = (bbs + ab.2 + bb) * oc + (ab.1 + ocs + oo) := by
    rw [hq]
    ring
  have hO : ab.1 + ocs + oo < oc := by omega
  have hdiv : q / oc = bbs + ab.2 + bb := by
    rw [hq']
    exact (q_decomp hO).1
  have hmod : q % oc = ab.1 + ocs + oo := by
    rw [hq']
    exact (q_decomp hO).2
  have hoo24 : oo < output_channels_subblock_max :=
    lt_of_lt_of_le hoon (min_le_right _ _)
  refine ⟨?_, ?_, ?_, ?_⟩
  · show q / oc / bbm * bbm = bbs
    rw [hdiv]
    have h1 : bbs + ab.2 + bb = bbs + (ab.2 + bb) := by omega
    rw [h1]
    exact blk_of_add hbbs_dvd (by omega)
  · show q % oc / ocbm * ocbm = ab.1
    rw [hmod]
    have h1 : ab.1 + ocs + oo = ab.1 + (ocs + oo) := by omega
    rw [h1]
    exact blk_of_add hocbs_dvd (by omega)
  · show (q / oc - bbs) / batch_subblock_max * batch_subblock_max = ab.2
    rw [hdiv]
    have h1 : bbs + ab.2 + bb - bbs = ab.2 + bb := by omega
    rw [h1]
    exact blk_of_add hbss_dvd (by omega)
  · show (q % oc - ab.1) / output_channels_subblock_max * output_channels_subblock_max = ocs
    rw [hmod]
    have h1 : ab.1 + ocs + oo - ab.1 = ocs + oo := by omega
    rw [h1]
    exact blk_of_add hocs_dvd hoo24

theorem fc_mult_phase_events_fst_nodup {scratch2 : Nat → ℚ}
    {batch ic oc bbm ocbm icbs icbsz piOff pkOff : Nat}
    (hbbm : 0 < bbm) (hocbm : 0 < ocbm) :
    ((fc_mult_phase_events scratch2 8 batch bbm ic oc ocbm icbs icbsz
      piOff pkOff).map Prod.fst).Nodup := by
  have h4 : (0 : Nat) < batch_subblock_max := by decide
  have h24 : (0 : Nat) < output_channels_subblock_max := by decide
  simp only [fc_mult_phase_events, fc_mult_block_events, compute_matrix_multiplication_events]
  apply nodup_flatMap_fst _ _ (fun q => q / oc / bbm * bbm)
  · exact tileStarts_nodup _ _ hbbm
  · intro bbs hbbs
    apply nodup_flatMap_fst _ _ (fun q => (q % oc / ocbm * ocbm,
      (q / oc - bbs) / batch_subblock_max * batch_subblock_max))
    · exact tilePairs_nodup _ _ _ _ hocbm h4
    · intro ab hab
      apply nodup_flatMap_fst _ _ (fun q =>
        (q % oc - ab.1) / output_channels_subblock_max * output_channels_subblock_max)
      · exact tileStarts_nodup _ _ h24
      · intro ocs hocs
        apply nnp_sgemm_events_fst_nodup
        intro oo hoo hen
        obtain ⟨⟨hocbs_dvd, hocbs_lt⟩, hbss_dvd, hbss_lt⟩ := (mem_tilePairs hocbm h4).mp hab
        obtain ⟨hocs_dvd, hocs_lt⟩ := (mem_tileStarts h24).mp hocs
        have hn1 : 1 ≤ min (min (oc - ab.1) ocbm - ocs) output_channels_subblock_max := by
          omega
        have hn24 : min (min (oc - ab.1) ocbm - ocs) output_channels_subblock_max ≤ 24 := by
          have := min_le_right (min (oc - ab.1) ocbm - ocs) output_channels_subblock_max
          unfold output_channels_subblock_max at this ⊢
          omega
        have hoon := (mask_enabled_iff hn1 hn24 oo hoo).mp hen
        omega
      · intro ocs hocs e he
        exact (fc_sgemm_event_coords hbbm hocbm hbbs hab hocs he).2.2.2
    · intro ab hab e he
      obtain ⟨ocs, hocs, he2⟩ := List.mem_flatMap.mp he
      have h := fc_sgemm_event_coords hbbm hocbm hbbs hab hocs he2
      exact Prod.ext h.2.1 h.2.2.1
  · intro bbs hbbs e he
    obtain ⟨ab, hab, he2⟩ := List.mem_flatMap.mp he
    obtain ⟨ocs, hocs, he3⟩ := List.mem_flatMap.mp he2
    exact (fc_sgemm_event_coords hbbm hocbm hbbs hab hocs he3).1

theorem fc_HIN_initial {input scratch : Nat → ℚ} {batch ic bbm icbm piOff : Nat}
    (hbbm : 0 < bbm) (hicbm : 0 < icbm) (hbbm4 : batch_subblock_max ∣ bbm)
    {b i : Nat} (hb : b < batch) (hi : i < ic) :
    applyWrites (shiftWrites piOff (fc_input_packing_writes input batch ic bbm icbm))
        scratch (piOff + fc_packed_input_index batch ic bbm icbm b i) =
      input (b * ic + i) := by
  apply applyWrites_eq_of_mem
  · exact mem_shiftWrites.mpr ⟨fc_packed_input_index batch ic bbm icbm b i, rfl,
      (fc_input_packing_writes_mem hbbm hicbm).mpr ⟨b, i, hb, hi, rfl, rfl⟩⟩
  · rintro ⟨p, v⟩ hm hp
    obtain ⟨p0, hp0, hm0⟩ := mem_shiftWrites.mp hm
    obtain ⟨b', i', hb', hi', hpi, hv⟩ := (fc_input_packing_writes_mem hbbm hicbm).mp hm0
    have hpp : p0 = fc_packed_input_index batch ic bbm icbm b i := by omega
    rw [hpi] at hpp
    obtain ⟨rfl, rfl⟩ := fc_packed_input_index_inj hbbm hicbm hbbm4 hb' hb hi' hi hpp
    exact hv

theorem fc_HIN_preserved {kernel st : Nat → ℚ}
    {batch ic icbs icbsz oc ocbm piOff pkOff p : Nat}
    (hdisj : piOff + round_up batch batch_subblock_max * ic ≤ pkOff)
    (hplt : p < round_up batch batch_subblock_max * ic) :
    applyWrites (shiftWrites pkOff (fc_kernel_packing_writes kernel ic icbs icbsz oc ocbm))
        st (piOff + p) = st (piOff + p) := by
  apply applyWrites_eq_of_forall_ne
  rintro ⟨q, v⟩ hm
  obtain ⟨p0, hp0, -⟩ := mem_shiftWrites.mp hm
  show q ≠ piOff + p
  omega

theorem fc_HK_of_writes {kernel st : Nat → ℚ} {ic icbs icbsz oc ocbm pkOff : Nat}
    (hocbm : 0 < ocbm) (hocbm24 : output_channels_subblock_max ∣ ocbm)
    {o l : Nat} (ho : o < oc) (hl : l < icbsz) :
    applyWrites (shiftWrites pkOff (fc_kernel_packing_writes kernel ic icbs icbsz oc ocbm))
        st (pkOff + fc_packed_kernel_index icbsz o l) =
      kernel (o * ic + (icbs + l)) := by
  apply applyWrites_eq_of_mem
  · exact mem_shiftWrites.mpr ⟨fc_packed_kernel_index icbsz o l, rfl,
      (fc_kernel_packing_writes_mem hocbm hocbm24).mpr ⟨o, l, ho, hl, rfl, rfl⟩⟩
  · rintro ⟨p, v⟩ hm hp
    obtain ⟨p0, hp0, hm0⟩ := mem_shiftWrites.mp hm
    obtain ⟨o', l', ho', hl', hpi, hv⟩ := (fc_kernel_packing_writes_mem hocbm hocbm24).mp hm0
    have hpp : p0 = fc_packed_kernel_index icbsz o l := by omega
    rw [hpi] at hpp
    obtain ⟨rfl, rfl⟩ := fc_packed_kernel_index_inj hl' hl hpp
    exact hv

theorem fc_blocks_fold {input kernel : Nat → ℚ}
    {batch ic oc bbm icbm ocbm piOff pkOff : Nat}
    (hbbm : 0 < bbm) (hbbm4 : batch_subblock_max ∣ bbm)
    (hicbm : 0 < icbm) (hocbm : 0 < ocbm)
    (hocbm24 : output_channels_subblock_max ∣ ocbm)
    (hdisj : piOff + round_up batch batch_subblock_max * ic ≤ pkOff)
    {b o : Nat} (hb : b < batch) (ho : o < oc)
    (bl : List Nat) (hbl : ∀ s ∈ bl, icbm ∣ s ∧ s < ic) :
    ∀ st : fc_state,
      (∀ b' i, b' < batch → i < ic →
        st.scratch (piOff + fc_packed_input_index batch ic bbm icbm b' i) =
          input (b' * ic + i)) →
      (bl.foldl (fc_input_channels_block_step 8 batch bbm batch_subblock_max ic icbm oc ocbm
          output_channels_subblock_max kernel piOff pkOff) st).out (b * oc + o) =
        bl.foldl (fun acc s => (if s ≠ 0 then acc else 0) +
          ∑ l ∈ Finset.range (min (ic - s) icbm),
            input (b * ic + (s + l)) * kernel (o * ic + (s + l))) (st.out (b * oc + o)) ∧
      ((bl.foldl (fc_input_channels_block_step 8 batch bbm batch_subblock_max ic icbm oc ocbm
          output_channels_subblock_max kernel piOff pkOff) st).owrites).count (b * oc + o) =
        st.owrites.count (b * oc + o) + bl.length := by
  induction bl with
  | nil => exact fun st _ => ⟨rfl, rfl⟩
  | cons s rest ih =>
    intro st HIN
    obtain ⟨hs_dvd, hs_lt⟩ := hbl s (List.mem_cons_self s rest)
    have hbl' : ∀ x ∈ rest, icbm ∣ x ∧ x < ic :=
      fun x hx => hbl x (List.mem_cons_of_mem _ hx)
    have HINW : ∀ b' i, b' < batch → i < ic →
        (applyWrites (shiftWrites pkOff
          (fc_kernel_packing_writes kernel ic s (min (ic - s) icbm) oc ocbm)) st.scratch)
          (piOff + fc_packed_input_index batch ic bbm icbm b' i) = input (b' * ic + i) := by
      intro b' i hb' hi
      rw [fc_HIN_preserved hdisj (fc_packed_input_index_lt hbbm hicbm hbbm4 hb' hi)]
      exact HIN b' i hb' hi
    have hmem : ((b * oc + o : Nat),
        ∑ l ∈ Finset.range (min (ic - s) icbm),
          input (b * ic + (s + l)) * kernel (o * ic + (s + l))) ∈
        fc_mult_phase_events
          (applyWrites (shiftWrites pkOff
            (fc_kernel_packing_writes kernel ic s (min (ic - s) icbm) oc ocbm)) st.scratch)
          8 batch bbm ic oc ocbm s (min (ic - s) icbm) piOff pkOff :=
      (fc_mult_phase_events_mem hbbm hbbm4 hicbm hocbm hocbm24 hs_dvd hs_lt HINW
        (fun o' l ho' hl => fc_HK_of_writes hocbm hocbm24 ho' hl)).mpr
        ⟨b, o, hb, ho, rfl, rfl⟩
    have HIN' : ∀ b' i, b' < batch → i < ic →
        (fc_input_channels_block_step 8 batch bbm batch_subblock_max ic icbm oc ocbm
          output_channels_subblock_max kernel piOff pkOff st s).scratch
          (piOff + fc_packed_input_index batch ic bbm icbm b' i) = input (b' * ic + i) := by
      intro b' i hb' hi
      rw [fc_input_channels_block_step_eq]
      exact HINW b' i hb' hi
    have hout : (fc_input_channels_block_step 8 batch bbm batch_subblock_max ic icbm oc ocbm
        output_channels_subblock_max kernel piOff pkOff st s).out (b * oc + o) =
        (if s ≠ 0 then st.out (b * oc + o) else 0) +
          ∑ l ∈ Finset.range (min (ic - s) icbm),
            input (b * ic + (s + l)) * kernel (o * ic + (s + l)) := by
      rw [fc_input_channels_block_step_eq]
      exact applyAccum_eq_of_mem hmem (fc_mult_phase_events_fst_nodup hbbm hocbm) st.out
    have hcnt1 : ((fc_mult_phase_events
        (applyWrites (shiftWrites pkOff
          (fc_kernel_packing_writes kernel ic s (min (ic - s) icbm) oc ocbm)) st.scratch)
        8 batch bbm ic oc ocbm s (min (ic - s) icbm) piOff pkOff).map Prod.fst).count
        (b * oc + o) = 1 := by
      have hnd := @fc_mult_phase_events_fst_nodup
        (applyWrites (shiftWrites pkOff
          (fc_kernel_packing_writes kernel ic s (min (ic - s) icbm) oc ocbm)) st.scratch)
        batch ic oc bbm ocbm s (min (ic - s) icbm) piOff pkOff hbbm hocbm
      have hmm := List.mem_map_of_mem Prod.fst hmem
      have hle := List.nodup_iff_count_le_one.mp hnd (b * oc + o)
      have hpos := List.count_pos_iff_mem.mpr hmm
      exact Nat.le_antisymm hle hpos
    have hcount : ((fc_input_channels_block_step 8 batch bbm batch_subblock_max ic icbm oc
        ocbm output_channels_subblock_max kernel piOff pkOff st s).owrites).count
        (b * oc + o) = st.owrites.count (b * oc + o) + 1 := by
      rw [fc_input_channels_block_step_eq]
      show (st.owrites ++ _).count _ = _
      rw [List.count_append, hcnt1]
    obtain ⟨ih1, ih2⟩ := ih hbl'
      (fc_input_channels_block_step 8 batch bbm batch_subblock_max ic icbm oc ocbm
        output_channels_subblock_max kernel piOff pkOff st s) HIN'
    constructor
    · rw [List.foldl_cons, List.foldl_cons, ih1, hout]
    · rw [List.foldl_cons, ih2, hcount, List.length_cons]
      omega

theorem foldl_reset_eq (g : Nat → ℚ) (L : List Nat) (h : ∀ s ∈ L, s ≠ 0) :
    ∀ init : ℚ, L.foldl (fun acc s => (if s ≠ 0 then acc else 0) + g s) init =
      init + (L.map g).sum := by
  induction L with
  | nil => intro init; simp
  | cons s rest ih =>
    intro init
    rw [List.foldl_cons, List.map_cons, List.sum_cons,
      ih (fun x hx => h x (List.mem_cons_of_mem _ hx)),
      if_pos (h s (List.mem_cons_self s rest))]
    ring

theorem sum_tileStarts (f : Nat → ℚ) {t : Nat} (ht : 0 < t) :
    ∀ r, ((tileStarts r t).map
      (fun s => ∑ l ∈ Finset.range (min (r - s) t), f (s + l))).sum =
      ∑ i ∈ Finset.range r, f i := by
  intro r
  induction r using Nat.strong_induction_on with
  | _ r ih =>
    rcases Nat.eq_zero_or_pos r with rfl | hr
    · have h0 : (0 + t - 1) / t = 0 := Nat.div_eq_of_lt (by omega)
      unfold tileStarts
      rw [h0]
      simp
    · have hn1 : 1 ≤ (r + t - 1) / t := (Nat.one_le_div_iff ht).mpr (by omega)
      have hr' : ((r + t - 1) / t - 1) * t < r := (lt_tile_count ht).mp (by omega)
      have hrn : r ≤ (r + t - 1) / t * t := by
        have h1 := le_round_up r ht
        unfold round_up at h1
        exact h1
      have hsub : ((r + t - 1) / t - 1) * t = (r + t - 1) / t * t - t := by
        rw [Nat.sub_mul, Nat.one_mul]
      have hsplit : tileStarts r t =
          tileStarts (((r + t - 1) / t - 1) * t) t ++ [((r + t - 1) / t - 1) * t] := by
        unfold tileStarts
        have h2 : (((r + t - 1) / t - 1) * t + t - 1) / t = (r + t - 1) / t - 1 := by
          have h3 : ((r + t - 1) / t - 1) * t + t - 1 =
              t * ((r + t - 1) / t - 1) + (t - 1) := by
            have h4 : t * ((r + t - 1) / t - 1) = ((r + t - 1) / t - 1) * t :=
              Nat.mul_comm _ _
            omega
          rw [h3, Nat.mul_add_div ht, Nat.div_eq_of_lt (show t - 1 < t from by omega),
            Nat.add_zero]
        rw [h2]
        have h5 : (r + t - 1) / t = ((r + t - 1) / t - 1) + 1 := by omega
        conv_lhs => rw [h5]
        rw [List.range_succ, List.map_append]
        rfl
      rw [hsplit, List.map_append, List.sum_append, List.map_singleton,
        List.sum_singleton]
      have htle : t ≤ (r + t - 1) / t * t := Nat.le_mul_of_pos_left t hn1
      have hmapeq : (tileStarts (((r + t - 1) / t - 1) * t) t).map
          (fun s => ∑ l ∈ Finset.range (min (r - s) t), f (s + l)) =
          (tileStarts (((r + t - 1) / t - 1) * t) t).map
          (fun s => ∑ l ∈ Finset.range
            (min (((r + t - 1) / t - 1) * t - s) t), f (s + l)) := by
        apply List.map_congr_left
        intro s hs
        obtain ⟨hsd, hslt⟩ := (mem_tileStarts ht).mp hs
        obtain ⟨c, rfl⟩ := hsd
        have hc : c < (r + t - 1) / t - 1 := by
          have h6 : t * ((r + t - 1) / t - 1) = ((r + t - 1) / t - 1) * t :=
            Nat.mul_comm _ _
          by_contra hcon
          push_neg at hcon
          have h7 : t * ((r + t - 1) / t - 1) ≤ t * c := Nat.mul_le_mul_left t hcon
          omega
        have hct : t * c + t ≤ ((r + t - 1) / t - 1) * t := by
          have h8 : t * (c + 1) ≤ t * ((r + t - 1) / t - 1) := Nat.mul_le_mul_left t hc
          have h6 : t * ((r + t - 1) / t - 1) = ((r + t - 1) / t - 1) * t :=
            Nat.mul_comm _ _
          have h9 : t * (c + 1) = t * c + t := by ring
          omega
        have e1 : min (r - t * c) t = t := by omega
        have e2 : min (((r + t - 1) / t - 1) * t - t * c) t = t := by omega
        rw [e1, e2]
      rw [hmapeq, ih _ hr']
      have e3 : min (r - ((r + t - 1) / t - 1) * t) t =
          r - ((r + t - 1) / t - 1) * t := by omega
      rw [e3]
      rw [Finset.range_eq_Ico]
      have e4 : ∑ i ∈ Finset.Ico (((r + t - 1) / t - 1) * t) r, f i =
          ∑ l ∈ Finset.Ico 0 (r - ((r + t - 1) / t - 1) * t),
            f (((r + t - 1) / t - 1) * t + l) := by
        rw [Finset.sum_Ico_eq_sum_range, Finset.range_eq_Ico]
      rw [← e4]
      exact Finset.sum_Ico_consecutive f (Nat.zero_le _) (le_of_lt hr')

theorem fold_reset_tileStarts (g : Nat → ℚ) {ic icbm : Nat} (hic : 0 < ic) (hicbm : 0 < icbm)
    (init : ℚ) :
    (tileStarts ic icbm).foldl (fun acc s => (if s ≠ 0 then acc else 0) + g s) init =
      ((tileStarts ic icbm).map g).sum := by
  have hn1 : 1 ≤ (ic + icbm - 1) / icbm := (Nat.one_le_div_iff hicbm).mpr (by omega)
  have h5 : (ic + icbm - 1) / icbm = ((ic + icbm - 1) / icbm - 1) + 1 := by omega
  have hhead : tileStarts ic icbm =
      0 :: (List.range ((ic + icbm - 1) / icbm - 1)).map (fun k => Nat.succ k * icbm) := by
    unfold tileStarts
    conv_lhs => rw [h5]
    rw [List.range_succ_eq_map, List.map_cons, List.map_map, Nat.zero_mul]
    rfl
  have htail : ∀ s ∈ (List.range ((ic + icbm - 1) / icbm - 1)).map
      (fun k => Nat.succ k * icbm), s ≠ 0 := by
    intro s hs
    obtain ⟨k, -, rfl⟩ := List.mem_map.mp hs
    have : 0 < Nat.succ k * icbm := Nat.mul_pos (Nat.succ_pos k) hicbm
    omega
  rw [hhead, List.foldl_cons, List.map_cons, List.sum_cons, foldl_reset_eq _ _ htail]
  simp

theorem fc_compute_output_correct {input kernel output scratch : Nat → ℚ}
    {batch ic oc bbm icbm ocbm piOff pkOff : Nat}
    (hic : 0 < ic)
    (hbbm : 0 < bbm) (hbbm4 : batch_subblock_max ∣ bbm)
    (hicbm : 0 < icbm) (hocbm : 0 < ocbm)
    (hocbm24 : output_channels_subblock_max ∣ ocbm)
    (hdisj : piOff + round_up batch batch_subblock_max * ic ≤ pkOff)
    {b o : Nat} (hb : b < batch) (ho : o < oc) :
    (compute_fully_connected_output 8 batch bbm batch_subblock_max ic icbm oc ocbm
        output_channels_subblock_max input kernel output scratch piOff pkOff).out
        (b * oc + o) =
      ∑ i ∈ Finset.range ic, input (b * ic + i) * kernel (o * ic + i) ∧
    ((compute_fully_connected_output 8 batch bbm batch_subblock_max ic icbm oc ocbm
        output_channels_subblock_max input kernel output scratch piOff pkOff).owrites).count
        (b * oc + o) = (ic + icbm - 1) / icbm := by
  have hbl : ∀ s ∈ tileStarts ic icbm, icbm ∣ s ∧ s < ic := by
    intro s hs
    exact (mem_tileStarts hicbm).mp hs
  have HIN0 : ∀ b' i, b' < batch → i < ic →
      (pthreadpool_compute_2d_tiled
        (fun buf outer_block_start input_channels_block_start outer_block_size
            input_channels_block_size =>
          applyWrites
            (shiftWrites piOff
              (pack_input_matrix_writes
                { matrix := input, input_channels := ic,
                  outer_subblock_max := batch_subblock_max }
                outer_block_start input_channels_block_start outer_block_size
                input_channels_block_size)) buf)
        scratch batch ic bbm icbm)
        (piOff + fc_packed_input_index batch ic bbm icbm b' i) = input (b' * ic + i) := by
    intro b' i hb' hi
    rw [fc_stage1_eq]
    exact fc_HIN_initial hbbm hicbm hbbm4 hb' hi
  have h1 := @fc_blocks_fold input kernel batch ic oc bbm icbm ocbm piOff pkOff
    hbbm hbbm4 hicbm hocbm hocbm24 hdisj b o hb ho
    (tileStarts ic icbm) hbl
    ⟨pthreadpool_compute_2d_tiled
      (fun buf outer_block_start input_channels_block_start outer_block_size
          input_channels_block_size =>
        applyWrites
          (shiftWrites piOff
            (pack_input_matrix_writes
              { matrix := input, input_channels := ic,
                outer_subblock_max := batch_subblock_max }
              outer_block_start input_channels_block_start outer_block_size
              input_channels_block_size)) buf)
      scratch batch ic bbm icbm, output, ([] : List Nat)⟩ HIN0
  have h2 := fold_reset_tileStarts
    (fun s => ∑ l ∈ Finset.range (min (ic - s) icbm),
      input (b * ic + (s + l)) * kernel (o * ic + (s + l))) hic hicbm (output (b * oc + o))
  have h3 := sum_tileStarts (fun i => input (b * ic + i) * kernel (o * ic + i)) hicbm ic
  have hlen : (tileStarts ic icbm).length = (ic + icbm - 1) / icbm := by
    unfold tileStarts
    rw [List.length_map, List.length_range]
  constructor
  · exact h1.1.trans (h2.trans h3)
  · exact h1.2.trans (by rw [hlen]; simp)

theorem fc_offsets_disjoint (batch ic : Nat) :
    round_up batch batch_subblock_max * ic ≤ fc_packed_kernel_offset batch ic / 4 := by
  unfold fc_packed_kernel_offset fc_packed_input_size
  have h1 : round_up batch batch_subblock_max * ic * 4 ≤
      round_up (round_up batch batch_subblock_max * ic * 4) 64 :=
    le_round_up _ (by decide)
  have h2 : round_up batch batch_subblock_max * ic * 4 / 4 ≤
      round_up (round_up batch batch_subblock_max * ic * 4) 64 / 4 :=
    Nat.div_le_div_right h1
  have h3 : round_up batch batch_subblock_max * ic * 4 / 4 =
      round_up batch batch_subblock_max * ic := Nat.mul_div_cancel _ (by decide)
  omega

/-- C1 (amended): on the hardware profiles the operator targets
(`simd_width = 8` and positive planner block sizes), a successful call —
valid shapes, allocation granted — returns `nnp_status_success` and leaves
every output element `output[b][o]` equal to the exact dot product
`Σ_{i < input_channels} input[b][i] * kernel[o][i]`; but the multiplication
stage stores each output element once per input-channel block, i.e. exactly
`⌈input_channels / input_channels_block_max⌉` times — which is "exactly
once" only when `input_channels ≤ input_channels_block_max`. -/
theorem fc_output_value_and_write_count
    (hwinfo : nnp_hwinfo) (allocate_memory : Nat → Bool)
    (batch ic oc : Nat) (input kernel output scratch : Nat → ℚ)
    (hsimd : hwinfo.simd_width = 8)
    (hbatch : 0 < batch) (hic : 0 < ic) (hoc : 0 < oc)
    (hicbm : 0 < fc_input_channels_block_max hwinfo)
    (hbbm : 0 < fc_batch_block_max hwinfo)
    (hocbm : 0 < fc_output_channels_block_max hwinfo)
    (halloc : allocate_memory (fc_memory_size hwinfo batch ic oc) = true)
    {b o : Nat} (hb : b < batch) (ho : o < oc) :
    (nnp_fully_connected_output hwinfo allocate_memory batch ic oc input kernel output
        scratch).status = nnp_status.success ∧
    (nnp_fully_connected_output hwinfo allocate_memory batch ic oc input kernel output
        scratch).output (b * oc + o) =
      ∑ i ∈ Finset.range ic, input (b * ic + i) * kernel (o * ic + i) ∧
    ((nnp_fully_connected_output hwinfo allocate_memory batch ic oc input kernel output
        scratch).owrites).count (b * oc + o) =
      (ic + fc_input_channels_block_max hwinfo - 1) / fc_input_channels_block_max hwinfo := by
  have hval : validate_fully_connected_arguments batch ic oc = nnp_status.success := by
    unfold validate_fully_connected_arguments
    rw [if_neg (by omega : ¬ batch = 0), if_neg (by omega : ¬ ic = 0),
      if_neg (by omega : ¬ oc = 0)]
  have hcorrect := @fc_compute_output_correct input kernel output scratch batch ic oc
    (fc_batch_block_max hwinfo) (fc_input_channels_block_max hwinfo)
    (fc_output_channels_block_max hwinfo)
    0 (fc_packed_kernel_offset batch ic / 4)
    hic hbbm (round_down_dvd _ _) hicbm hocbm (round_down_dvd _ _)
    (by
      have := fc_offsets_disjoint batch ic
      omega)
    b o hb ho
  unfold nnp_fully_connected_output
  simp only [hval, halloc, hsimd, eq_self_iff_true, if_true]
  exact ⟨trivial, hcorrect.1, hcorrect.2⟩

/-- A minimal hardware profile for concrete evaluation: 112-byte L1,
96-byte L2, 16-byte L3, `simd_width = 8`.  The planner turns it into
`input_channels_block_max = 1`, `batch_block_max = 4`,
`output_channels_block_max = 24`. -/
def hw_tiny : nnp_hwinfo :=
  { l1 := 112, l2 := 96, l3 := 16, simd_width := 8 }

/-- C1 witness: the amended theorem applied to `hw_tiny` with
`batch_size = input_channels = output_channels = 1`, constant input 2 and
kernel 3: the call succeeds, `output[0][0] = 2 * 3`, and the element is
written `⌈1 / 1⌉ = 1` time. -/
theorem fc_output_value_and_write_count_witness :
    hw_tiny.simd_width = 8 ∧ (0 : Nat) < 1 ∧
      0 < fc_input_channels_block_max hw_tiny ∧
      0 < fc_batch_block_max hw_tiny ∧
      0 < fc_output_channels_block_max hw_tiny ∧
      (fun _ => true) (fc_memory_size hw_tiny 1 1 1) = true ∧
      ((nnp_fully_connected_output hw_tiny (fun _ => true) 1 1 1 (fun _ => (2 : ℚ))
          (fun _ => (3 : ℚ)) (fun _ => 0) (fun _ => 0)).status = nnp_status.success ∧
        (nnp_fully_connected_output hw_tiny (fun _ => true) 1 1 1 (fun _ => (2 : ℚ))
          (fun _ => (3 : ℚ)) (fun _ => 0) (fun _ => 0)).output (0 * 1 + 0) =
          ∑ i ∈ Finset.range 1, (2 : ℚ) * 3 ∧
        ((nnp_fully_connected_output hw_tiny (fun _ => true) 1 1 1 (fun _ => (2 : ℚ))
          (fun _ => (3 : ℚ)) (fun _ => 0) (fun _ => 0)).owrites).count (0 * 1 + 0) =
          (1 + fc_input_channels_block_max hw_tiny - 1) /
            fc_input_channels_block_max hw_tiny) :=
  ⟨rfl, by decide, by decide, by decide, by decide, rfl,
    fc_output_value_and_write_count hw_tiny (fun _ => true) 1 1 1 (fun _ => (2 : ℚ))
      (fun _ => (3 : ℚ)) (fun _ => 0) (fun _ => 0) rfl (by decide) (by decide) (by decide)
      (by decide) (by decide) (by decide) rfl (b := 0) (o := 0) (by decide) (by decide)⟩

/-- C1 counterexample to "every output element written exactly once": on
`hw_tiny` (`input_channels_block_max = 1`) with `batch_size = 1`,
`input_channels = 2`, `output_channels = 1`, the call succeeds but the
multiplication stage stores output element 0 twice — once per
input-channel block. -/
theorem fc_output_written_once_counterexample :
    (nnp_fully_connected_output hw_tiny (fun _ => true) 1 2 1 (fun _ => (1 : ℚ))
        (fun _ => (1 : ℚ)) (fun _ => 0) (fun _ => 0)).status = nnp_status.success ∧
    ((nnp_fully_connected_output hw_tiny (fun _ => true) 1 2 1 (fun _ => (1 : ℚ))
        (fun _ => (1 : ℚ)) (fun _ => 0) (fun _ => 0)).owrites).count 0 = 2 := by
  constructor
  · rfl
  · decide
